import Mathlib

/-!
# trivigy/multiset: a map-based multiset

Shallow embedding of `multiset.go`.

* Go's `int` is taken at 64 bits: a value of `GoInt` is an integer in
  `[-2^63, 2^63 - 1]`, and `+`, `-` wrap around (`addInt`, `subInt`).
* `map[interface{}]int` is an association list with pairwise distinct keys
  (`AList`); the list order stands for the map's unspecified iteration order.
  Keys are values with a lawful decidable equality, i.e. hashable keys other
  than floating point NaN.
* A method with a pointer receiver that mutates the multiset becomes a function
  returning the new multiset (paired with the returned value when there is one).
* The functions leave the `sync.RWMutex` out: every method is modelled as it
  runs on its own, between `Lock` and `Unlock`. Which lock a method holds when
  it touches the map is modelled apart, by `steps` and `lockDisciplined`.
* `Iter` is the sequence received from its channel; the order in which `range`
  visits the map is an argument, since Go leaves it open.
-/

namespace multiset

/-! ## Machine integers -/

/-- The smallest value of a 64-bit `int`. -/
def minInt : Int := -9223372036854775808

/-- The largest value of a 64-bit `int`. -/
def maxInt : Int := 9223372036854775807

/-- Two's complement wrap-around of an integer into the range of `int`. -/
def wrapInt (x : Int) : Int :=
  (x + 9223372036854775808) % 18446744073709551616 - 9223372036854775808

/-- A Go `int`. -/
abbrev GoInt : Type := {x : Int // minInt ≤ x ∧ x ≤ maxInt}

/-- The `int` with value `x` reduced into range (a constant or a conversion). -/
def toInt (x : Int) : GoInt :=
  ⟨wrapInt x, by unfold wrapInt minInt maxInt; omega⟩

/-- Go's `a + b` on `int`. -/
def addInt (a b : GoInt) : GoInt := toInt (a.val + b.val)

/-- Go's `a - b` on `int`. -/
def subInt (a b : GoInt) : GoInt := toInt (a.val - b.val)

/-! ## The multiset -/

/-- The struct `Multiset`: the field `elems map[interface{}]int`. -/
structure Multiset (α : Type) where
  elems : AList (fun _ : α => GoInt)

variable {α : Type} [DecidableEq α]

/-- The map index expression `m.elems[e]` read as a value: the zero value when the key is
absent. -/
def index (m : Multiset α) (e : α) : GoInt :=
  (m.elems.lookup e).getD (toInt 0)

/-- `func (m *Multiset) count(s ...interface{}) int` -/
def count (m : Multiset α) (s : List α) : GoInt :=
  s.foldl
    (fun total e =>
      match m.elems.lookup e with
      | some c => addInt total c
      | none => total)
    (toInt 0)

/-- `func (m *Multiset) Count(e interface{}) int` -/
def Count (m : Multiset α) (e : α) : GoInt :=
  count m [e]

/-- `func (m *Multiset) addCount(e interface{}, c int) int` -/
def addCount (m : Multiset α) (e : α) (c : GoInt) : Multiset α × GoInt :=
  let cnt := count m [e]
  if c.val ≤ 0 then
    (m, cnt)
  else
    (⟨m.elems.insert e (addInt (index m e) c)⟩, cnt)

/-- `func (m *Multiset) AddCount(e interface{}, c int) int` -/
def AddCount (m : Multiset α) (e : α) (c : GoInt) : Multiset α × GoInt :=
  addCount m e c

/-- `func New(l ...interface{}) *Multiset` -/
def New (l : List α) : Multiset α :=
  l.foldl (fun m e => (addCount m e (toInt 1)).1) ⟨∅⟩

/-- `func (m *Multiset) Add(s ...interface{})` -/
def Add (m : Multiset α) (s : List α) : Multiset α :=
  s.foldl (fun m e => (addCount m e (toInt 1)).1) m

/-- `func (m *Multiset) contains(s ...interface{}) bool` -/
def contains (m : Multiset α) : List α → Bool
  | [] => true
  | e :: s => if (count m [e]).val ≤ 0 then false else contains m s

/-- `func (m *Multiset) Contains(s ...interface{}) bool` -/
def Contains (m : Multiset α) (s : List α) : Bool :=
  contains m s

/-- The loop of `equals` over the entries of the receiver's map still to be visited. -/
def equalsLoop (o : Multiset α) : List (Sigma fun _ : α => GoInt) → Bool
  | [] => true
  | ⟨elem, cnt⟩ :: rest =>
    if (!contains o [elem] || decide (count o [elem] ≠ cnt)) then false
    else equalsLoop o rest

/-- `func (m *Multiset) equals(o *Multiset) bool` -/
def equals (m o : Multiset α) : Bool :=
  if m.elems.entries.length ≠ o.elems.entries.length then false
  else equalsLoop o m.elems.entries

/-- `func (m *Multiset) Equals(o *Multiset) bool` -/
def Equals (m o : Multiset α) : Bool :=
  equals m o

/-- `func (m *Multiset) Clear()` -/
def Clear (_m : Multiset α) : Multiset α :=
  ⟨∅⟩

/-- `func (m *Multiset) size() int` -/
def size (m : Multiset α) : GoInt :=
  m.elems.entries.foldl (fun total p => addInt total p.2) (toInt 0)

/-- `func (m *Multiset) Size() int` -/
def Size (m : Multiset α) : GoInt :=
  size m

/-- `func (m *Multiset) IsEmpty() bool` -/
def IsEmpty (m : Multiset α) : Bool :=
  decide ((size m).val = 0)

/-- `func (m *Multiset) removeCount(e interface{}, c int) int` -/
def removeCount (m : Multiset α) (e : α) (c : GoInt) : Multiset α × GoInt :=
  let cnt := count m [e]
  if c.val ≤ 0 then
    (m, cnt)
  else
    match m.elems.lookup e with
    | some v =>
      let m1 : Multiset α := ⟨m.elems.insert e (subInt v c)⟩
      if (index m1 e).val ≤ 0 then
        (⟨m1.elems.erase e⟩, cnt)
      else
        (m1, cnt)
    | none => (m, cnt)

/-- `func (m *Multiset) RemoveCount(e interface{}, c int) int` -/
def RemoveCount (m : Multiset α) (e : α) (c : GoInt) : Multiset α × GoInt :=
  removeCount m e c

/-- `func (m *Multiset) Remove(s ...interface{}) bool`: the state of the loop is the
multiset together with the variable `changed`. -/
def Remove (m : Multiset α) (s : List α) : Multiset α × Bool :=
  s.foldl
    (fun st e =>
      let r := removeCount st.1 e (toInt 1)
      if 1 < r.2.val then (r.1, true) else (r.1, st.2))
    (m, false)

/-- `func (m *Multiset) DistinctElements() []interface{}` -/
def DistinctElements (m : Multiset α) : List α :=
  m.elems.entries.map (fun p => p.1)

/-- The elements appended by the nested loops of `Iter` and `ToSlice`: every key, once per
iteration of `for i := 0; i < count; i++`. -/
def occurrences (m : Multiset α) : List α :=
  m.elems.entries.flatMap (fun p => List.replicate p.2.val.toNat p.1)

/-- `func (m *Multiset) ToSlice() []interface{}`: `make` with a negative capacity is a
run-time panic, which is `none`. The memory a slice takes is not modelled. -/
def ToSlice (m : Multiset α) : Option (List α) :=
  if (Size m).val < 0 then none else some (occurrences m)

/-- Every count stored in the map is positive. -/
def Positive (m : Multiset α) : Prop :=
  ∀ p ∈ m.elems.entries, 0 < p.2.val

instance (m : Multiset α) : Decidable (Positive m) := by
  unfold Positive
  infer_instance

/-- The sum of the stored counts as an unbounded integer (what `size` computes before
wrap-around). -/
def total (m : Multiset α) : Int :=
  (m.elems.entries.map (fun p => p.2.val)).sum

/-- `func (m *Multiset) Iter() <-chan interface{}`: the elements received from the channel
until it is closed, when `range m.elems` visits the entries in the order `ord` (Go leaves
the order open, and it may differ from one loop to the next). -/
def Iter (_m : Multiset α) (ord : List (Sigma fun _ : α => GoInt)) : List α :=
  ord.flatMap (fun p => List.replicate p.2.val.toNat p.1)

/-! ## Sequences of calls -/

/-- A call of one of the mutating methods. -/
inductive Op (α : Type) where
  | add (s : List α)
  | addCount (e : α) (c : GoInt)
  | remove (s : List α)
  | removeCount (e : α) (c : GoInt)
  | clear

/-- The multiset after a call. -/
def Op.apply (op : Op α) (m : Multiset α) : Multiset α :=
  match op with
  | .add s => Add m s
  | .addCount e c => (AddCount m e c).1
  | .remove s => (Remove m s).1
  | .removeCount e c => (RemoveCount m e c).1
  | .clear => Clear m

/-- The multiset after a sequence of calls. -/
def run (m : Multiset α) (ops : List (Op α)) : Multiset α :=
  ops.foldl (fun m op => op.apply m) m

/-- A multiset that `New` followed by a sequence of calls produces. -/
def Reachable (m : Multiset α) : Prop :=
  ∃ (l : List α) (ops : List (Op α)), m = run (New l) ops

/-- The call adds no more occurrences of an element than an `int` can still count. -/
def Op.NoOverflow (op : Op α) (m : Multiset α) : Prop :=
  match op with
  | .add s => ∀ x ∈ s, (Count m x).val + (s.count x : Int) ≤ maxInt
  | .addCount e c => (Count m e).val + c.val ≤ maxInt
  | _ => True

/-- No call of the sequence, started on `m`, overflows a count. -/
def NoOverflow (m : Multiset α) : List (Op α) → Prop
  | [] => True
  | op :: ops => op.NoOverflow m ∧ NoOverflow (op.apply m) ops

/-- The sum of `Count(e)` over the elements of `DistinctElements()`, as an unbounded
integer. -/
def sumCounts (m : Multiset α) : Int :=
  ((DistinctElements m).map (fun e => (Count m e).val)).sum

/-! ## Lock discipline -/

/-- What a method does to a mutex or to a map `elems`, as far as the lock discipline goes.
`Lock`, `Unlock`, `RLock`, `RUnlock`, `readElems` and `writeElems` act on the receiver;
the last three act on the argument `o` of `Equals`. -/
inductive Step where
  | Lock
  | Unlock
  | RLock
  | RUnlock
  | readElems
  | writeElems
  | RLockOther
  | RUnlockOther
  | readElemsOther
  deriving DecidableEq

/-- The exported methods. -/
inductive Method where
  | String
  | Add
  | AddCount
  | Contains
  | Equals
  | Count
  | Clear
  | IsEmpty
  | Size
  | Remove
  | RemoveCount
  | Iter
  | DistinctElements
  | ToSlice
  deriving DecidableEq

/-- The steps of `ToSlice` in program order: `m.Size()` (which takes and releases the read
lock itself) for the capacity, then the loop under the read lock. -/
def toSliceSteps : List Step :=
  [.RLock, .readElems, .RUnlock, .RLock, .readElems, .RUnlock]

/-- The steps of each exported method in program order, calls of unexported helpers
inlined, the body of a loop listed once, a deferred unlock at the return. -/
def steps : Method → List Step
  | .String => toSliceSteps
  | .Add => [.Lock, .readElems, .writeElems, .Unlock]
  | .AddCount => [.Lock, .readElems, .writeElems, .Unlock]
  | .Contains => [.RLock, .readElems, .RUnlock]
  | .Equals =>
    [.RLock, .RLockOther, .readElems, .readElemsOther, .readElems, .readElemsOther,
      .RUnlockOther, .RUnlock]
  | .Count => [.RLock, .readElems, .RUnlock]
  | .Clear => [.Lock, .writeElems, .Unlock]
  | .IsEmpty => [.RLock, .readElems, .RUnlock]
  | .Size => [.RLock, .readElems, .RUnlock]
  | .Remove => [.Lock, .readElems, .writeElems, .Unlock]
  | .RemoveCount => [.Lock, .readElems, .writeElems, .Unlock]
  | .Iter => [.RLock, .readElems, .RUnlock]
  | .DistinctElements => [.readElems, .RLock, .readElems, .RUnlock]
  | .ToSlice => toSliceSteps

/-- How a mutex is held by the running method. -/
inductive Held where
  | no
  | shared
  | exclusive
  deriving DecidableEq

/-- Whether every read of a map happens with its mutex held and every write with it held
exclusively; `own` and `other` tell how the receiver's and the argument's mutex are held
before the steps. -/
def lockDisciplined : Held → Held → List Step → Bool
  | _, _, [] => true
  | _, other, .Lock :: rest => lockDisciplined .exclusive other rest
  | _, other, .Unlock :: rest => lockDisciplined .no other rest
  | _, other, .RLock :: rest => lockDisciplined .shared other rest
  | _, other, .RUnlock :: rest => lockDisciplined .no other rest
  | own, other, .readElems :: rest => decide (own ≠ .no) && lockDisciplined own other rest
  | own, other, .writeElems :: rest =>
    decide (own = .exclusive) && lockDisciplined own other rest
  | own, _, .RLockOther :: rest => lockDisciplined own .shared rest
  | own, _, .RUnlockOther :: rest => lockDisciplined own .no rest
  | own, other, .readElemsOther :: rest =>
    decide (other ≠ .no) && lockDisciplined own other rest


/-! ## Integers and map reads -/

theorem wrapInt_range (x : Int) : minInt ≤ wrapInt x ∧ wrapInt x ≤ maxInt := by
  unfold wrapInt minInt maxInt
  omega

theorem wrapInt_of_range {x : Int} (h : minInt ≤ x ∧ x ≤ maxInt) : wrapInt x = x := by
  unfold wrapInt
  unfold minInt maxInt at h
  omega

theorem toInt_val {x : Int} (h : minInt ≤ x ∧ x ≤ maxInt) : (toInt x).val = x :=
  wrapInt_of_range h

theorem toInt_zero_val : (toInt 0).val = 0 := by decide

theorem toInt_one_val : (toInt 1).val = 1 := by decide

theorem addInt_val (a b : GoInt) : (addInt a b).val = wrapInt (a.val + b.val) := rfl

theorem subInt_val (a b : GoInt) : (subInt a b).val = wrapInt (a.val - b.val) := rfl

theorem addInt_zero_left (c : GoInt) : addInt (toInt 0) c = c := by
  apply Subtype.ext
  rw [addInt_val, toInt_zero_val, zero_add]
  exact wrapInt_of_range c.2

theorem count_single (m : Multiset α) (e : α) : count m [e] = index m e := by
  unfold count index
  cases h : m.elems.lookup e with
  | none => simp [h]
  | some c => simp [h, addInt_zero_left]

theorem Count_eq_index (m : Multiset α) (e : α) : Count m e = index m e :=
  count_single m e

theorem index_insert_self (s : AList (fun _ : α => GoInt)) (e : α) (v : GoInt) :
    index ⟨s.insert e v⟩ e = v := by
  simp [index, AList.lookup_insert]

theorem index_insert_ne (s : AList (fun _ : α => GoInt)) {e x : α} (v : GoInt) (h : x ≠ e) :
    index ⟨s.insert e v⟩ x = index ⟨s⟩ x := by
  simp [index, AList.lookup_insert_ne h]

theorem index_erase_self (s : AList (fun _ : α => GoInt)) (e : α) :
    index ⟨s.erase e⟩ e = toInt 0 := by
  simp [index, AList.lookup_erase]

theorem index_erase_ne (s : AList (fun _ : α => GoInt)) {e x : α} (h : x ≠ e) :
    index ⟨s.erase e⟩ x = index ⟨s⟩ x := by
  simp [index, AList.lookup_erase_ne h]

theorem index_of_lookup_none {m : Multiset α} {e : α} (h : m.elems.lookup e = none) :
    index m e = toInt 0 := by
  simp [index, h]

theorem index_of_lookup_some {m : Multiset α} {e : α} {v : GoInt}
    (h : m.elems.lookup e = some v) : index m e = v := by
  simp [index, h]

/-! ## addCount -/

theorem addCount_snd (m : Multiset α) (e : α) (c : GoInt) : (addCount m e c).2 = Count m e := by
  unfold addCount Count
  split <;> rfl

theorem addCount_nonpos (m : Multiset α) (e : α) {c : GoInt} (h : c.val ≤ 0) :
    (addCount m e c).1 = m := by
  simp [addCount, h]

theorem addCount_pos_fst (m : Multiset α) (e : α) {c : GoInt} (h : 0 < c.val) :
    (addCount m e c).1 = ⟨m.elems.insert e (addInt (index m e) c)⟩ := by
  simp [addCount, not_le.mpr h]

theorem index_addCount_self (m : Multiset α) (e : α) {c : GoInt} (h : 0 < c.val) :
    index (addCount m e c).1 e = addInt (index m e) c := by
  rw [addCount_pos_fst m e h, index_insert_self]

theorem index_addCount_ne (m : Multiset α) {e x : α} (c : GoInt) (h : x ≠ e) :
    index (addCount m e c).1 x = index m x := by
  by_cases hc : c.val ≤ 0
  · rw [addCount_nonpos m e hc]
  · rw [addCount_pos_fst m e (not_le.mp hc), index_insert_ne _ _ h]

theorem index_New_nil (e : α) : index (New ([] : List α)) e = toInt 0 := by
  simp [New, index]


/-! ## AddCount -/

/-- C1 (as stated, refuted): on the multiset holding `maxInt` occurrences of an element,
reached from the empty multiset by `AddCount(e, maxInt)`, the call `AddCount(e, 1)` does
not leave `Count(e)` equal to the before-count plus 1: the stored count wraps around to
`minInt`. -/
theorem AddCount_overflow :
    (Count (AddCount (AddCount (New ([] : List Nat)) 7 (toInt maxInt)).1 7 (toInt 1)).1 7).val
        = minInt ∧
      ¬ ((Count (AddCount (AddCount (New ([] : List Nat)) 7 (toInt maxInt)).1 7
            (toInt 1)).1 7).val
          = (Count (AddCount (New ([] : List Nat)) 7 (toInt maxInt)).1 7).val
            + (toInt 1).val) := by
  decide

/-- C1 (amended): `AddCount(e, c)` returns `Count(e)` as it was before the call; for
`c <= 0` the multiset is unchanged; for `c > 0` the new `Count(e)` is the before-count
plus `c` in wrap-around `int` arithmetic, hence exactly the before-count plus `c` whenever
that sum is at most `maxInt`, and `Count(x)` is unchanged for `x != e`. On the empty
multiset `AddCount(e, c)` with `c > 0` gives `Count(e) == c`, and a following
`AddCount(e, c2)` with `c2 > 0` and `c + c2 <= maxInt` gives `Count(e) == c + c2`. -/
theorem AddCount_spec (m : Multiset α) (e : α) (c : GoInt) :
    (AddCount m e c).2 = Count m e ∧
    (c.val ≤ 0 → (AddCount m e c).1 = m) ∧
    (0 < c.val →
      (Count (AddCount m e c).1 e).val = wrapInt ((Count m e).val + c.val) ∧
      ((Count m e).val + c.val ≤ maxInt →
        (Count (AddCount m e c).1 e).val = (Count m e).val + c.val) ∧
      (∀ x, x ≠ e → Count (AddCount m e c).1 x = Count m x) ∧
      Count (AddCount (New []) e c).1 e = c ∧
      (∀ c2 : GoInt, 0 < c2.val → c.val + c2.val ≤ maxInt →
        (Count (AddCount (AddCount (New []) e c).1 e c2).1 e).val = c.val + c2.val)) := by
  refine ⟨addCount_snd m e c, addCount_nonpos m e, fun hc => ?_⟩
  have hself : ∀ (m0 : Multiset α) (d : GoInt), 0 < d.val →
      (Count (AddCount m0 e d).1 e).val = wrapInt ((Count m0 e).val + d.val) := by
    intro m0 d hd
    simp only [AddCount, Count_eq_index]
    rw [index_addCount_self m0 e hd, addInt_val]
  have hempty : Count (AddCount (New []) e c).1 e = c := by
    apply Subtype.ext
    rw [hself _ c hc, Count_eq_index, index_New_nil, toInt_zero_val, zero_add]
    exact wrapInt_of_range c.2
  refine ⟨hself m c hc, fun hle => ?_, fun x hx => ?_, hempty, fun c2 hc2 hle => ?_⟩
  · rw [hself m c hc]
    exact wrapInt_of_range ⟨by have := (Count m e).2.1; unfold minInt at *; omega, hle⟩
  · simp only [AddCount, Count_eq_index]
    exact index_addCount_ne m c hx
  · rw [hself _ c2 hc2, hempty]
    exact wrapInt_of_range ⟨by unfold minInt; omega, hle⟩

/-- C1, at a concrete input: three occurrences added to a multiset holding two. -/
theorem AddCount_spec_witness :
    (AddCount (New [1, 1, 2]) 1 (toInt 3)).2 = Count (New [1, 1, 2]) 1 ∧
    (Count (AddCount (New [1, 1, 2]) 1 (toInt 3)).1 1).val = 5 ∧
    Count (AddCount (New [1, 1, 2]) 1 (toInt 3)).1 2 = Count (New [1, 1, 2]) 2 ∧
    (Count (AddCount (AddCount (New []) 1 (toInt 3)).1 1 (toInt 4)).1 1).val = 7 :=
  have h := AddCount_spec (New [1, 1, 2]) 1 (toInt 3)
  have hp := h.2.2 (by decide)
  ⟨h.1, hp.2.1 (by decide), hp.2.2.1 2 (by decide),
    hp.2.2.2.2 (toInt 4) (by decide) (by decide)⟩

/-! ## removeCount -/

theorem positive_iff_lookup (m : Multiset α) :
    Positive m ↔ ∀ e v, m.elems.lookup e = some v → 0 < v.val := by
  constructor
  · intro h e v hv
    exact h ⟨e, v⟩ (AList.mem_lookup_iff.mp hv)
  · rintro h ⟨e, v⟩ hp
    exact h e v (AList.mem_lookup_iff.mpr hp)

theorem lookup_isSome_of_mem_keys {m : Multiset α} {e : α} (h : e ∈ m.elems.keys) :
    ∃ v, m.elems.lookup e = some v := by
  have h1 : (m.elems.lookup e).isSome := AList.lookup_isSome.mpr (AList.mem_keys.mpr h)
  exact Option.isSome_iff_exists.mp h1

theorem lookup_none_of_not_mem_keys {m : Multiset α} {e : α} (h : e ∉ m.elems.keys) :
    m.elems.lookup e = none :=
  AList.lookup_eq_none.mpr (fun hm => h (AList.mem_keys.mp hm))

theorem not_mem_keys_of_lookup_none {m : Multiset α} {e : α} (h : m.elems.lookup e = none) :
    e ∉ m.elems.keys :=
  fun hm => AList.lookup_eq_none.mp h (AList.mem_keys.mpr hm)

theorem mem_keys_of_lookup_some {m : Multiset α} {e : α} {v : GoInt}
    (h : m.elems.lookup e = some v) : e ∈ m.elems.keys := by
  by_contra hn
  rw [lookup_none_of_not_mem_keys hn] at h
  exact Option.noConfusion h

theorem removeCount_snd (m : Multiset α) (e : α) (c : GoInt) :
    (removeCount m e c).2 = Count m e := by
  unfold removeCount Count
  split
  · rfl
  · split
    · dsimp only
      split <;> rfl
    · rfl

theorem removeCount_nonpos (m : Multiset α) (e : α) {c : GoInt} (h : c.val ≤ 0) :
    (removeCount m e c).1 = m := by
  simp [removeCount, h]

theorem removeCount_absent (m : Multiset α) {e : α} (c : GoInt)
    (h : m.elems.lookup e = none) : (removeCount m e c).1 = m := by
  unfold removeCount
  split
  · rfl
  · simp [h]

theorem removeCount_present (m : Multiset α) {e : α} {c v : GoInt} (hc : 0 < c.val)
    (h : m.elems.lookup e = some v) :
    (removeCount m e c).1 =
      if (subInt v c).val ≤ 0 then ⟨(m.elems.insert e (subInt v c)).erase e⟩
      else ⟨m.elems.insert e (subInt v c)⟩ := by
  unfold removeCount
  rw [if_neg (not_le.mpr hc)]
  simp only [h, index_insert_self]
  split <;> rfl

theorem lookup_removeCount_self (m : Multiset α) {e : α} {c v : GoInt} (hc : 0 < c.val)
    (h : m.elems.lookup e = some v) :
    (removeCount m e c).1.elems.lookup e =
      if (subInt v c).val ≤ 0 then none else some (subInt v c) := by
  rw [removeCount_present m hc h]
  split
  · exact AList.lookup_erase e _
  · exact AList.lookup_insert _

theorem lookup_removeCount_ne (m : Multiset α) {e x : α} (c : GoInt) (hx : x ≠ e) :
    (removeCount m e c).1.elems.lookup x = m.elems.lookup x := by
  by_cases hc : c.val ≤ 0
  · rw [removeCount_nonpos m e hc]
  · cases h : m.elems.lookup e with
    | none => rw [removeCount_absent m c h]
    | some v =>
      rw [removeCount_present m (not_le.mp hc) h]
      split
      · rw [AList.lookup_erase_ne hx, AList.lookup_insert_ne hx]
      · exact AList.lookup_insert_ne hx

theorem positive_removeCount {m : Multiset α} (hm : Positive m) (e : α) (c : GoInt) :
    Positive (removeCount m e c).1 := by
  rw [positive_iff_lookup] at hm ⊢
  intro x w hw
  by_cases hx : x = e
  · subst hx
    by_cases hc : c.val ≤ 0
    · rw [removeCount_nonpos m x hc] at hw
      exact hm x w hw
    · cases h : m.elems.lookup x with
      | none =>
        rw [removeCount_absent m c h] at hw
        exact hm x w hw
      | some v =>
        rw [lookup_removeCount_self m (not_le.mp hc) h] at hw
        split at hw
        · exact Option.noConfusion hw
        · rename_i hpos
          cases hw
          exact not_le.mp hpos
  · rw [lookup_removeCount_ne m c hx] at hw
    exact hm x w hw

/-- The difference of a positive count and a positive number of removals does not
overflow. -/
theorem subInt_val_of_pos {v c : GoInt} (hv : 0 < v.val) (hc : 0 < c.val) :
    (subInt v c).val = v.val - c.val := by
  rw [subInt_val]
  have h1 := v.2.2
  have h2 := c.2.2
  unfold maxInt at h1 h2
  exact wrapInt_of_range ⟨by unfold minInt; omega, by unfold maxInt; omega⟩

/-- C2: on a multiset whose stored counts are all positive, `RemoveCount(e, c)` returns
`Count(e)` as it was before the call; for `c <= 0` or `e` absent the multiset is unchanged;
for `c > 0` and `e` present the new `Count(e)` is `max(0, before - c)`, the entry of `e` is
deleted exactly when `before - c <= 0`, and `Count(x)` is unchanged for `x != e`. -/
theorem RemoveCount_spec (m : Multiset α) (hm : Positive m) (e : α) (c : GoInt) :
    (RemoveCount m e c).2 = Count m e ∧
    (c.val ≤ 0 ∨ e ∉ m.elems.keys → (RemoveCount m e c).1 = m) ∧
    (0 < c.val → e ∈ m.elems.keys →
      (Count (RemoveCount m e c).1 e).val = max 0 ((Count m e).val - c.val) ∧
      (e ∉ (RemoveCount m e c).1.elems.keys ↔ (Count m e).val - c.val ≤ 0) ∧
      (∀ x, x ≠ e → Count (RemoveCount m e c).1 x = Count m x)) := by
  refine ⟨removeCount_snd m e c, ?_, fun hc he => ?_⟩
  · rintro (hc | he)
    · exact removeCount_nonpos m e hc
    · exact removeCount_absent m c (lookup_none_of_not_mem_keys he)
  · obtain ⟨v, hv⟩ := lookup_isSome_of_mem_keys he
    have hvpos : 0 < v.val := (positive_iff_lookup m).mp hm e v hv
    have hsub := subInt_val_of_pos hvpos hc
    have hlk := lookup_removeCount_self m hc hv
    have hcnt : Count m e = v := by rw [Count_eq_index, index_of_lookup_some hv]
    rw [hsub] at hlk
    simp only [RemoveCount, hcnt]
    refine ⟨?_, ?_, fun x hx => ?_⟩
    · rw [Count_eq_index]
      by_cases hle : v.val - c.val ≤ 0
      · rw [if_pos hle] at hlk
        rw [index_of_lookup_none hlk, toInt_zero_val, max_eq_left hle]
      · rw [if_neg hle] at hlk
        rw [index_of_lookup_some hlk, hsub, max_eq_right (le_of_lt (not_le.mp hle))]
    · constructor
      · intro habs
        by_contra hle
        rw [if_neg hle] at hlk
        exact habs (mem_keys_of_lookup_some hlk)
      · intro hle
        rw [if_pos hle] at hlk
        exact not_mem_keys_of_lookup_none hlk
    · simp only [Count_eq_index, index, lookup_removeCount_ne m c hx]

/-- C2, at a concrete input: the test `ExampleMultiset_RemoveCount`, removing three
occurrences of an element held three times. -/
theorem RemoveCount_spec_witness :
    Positive (New ["a", "a", "a", "b", "b"]) ∧
    (RemoveCount (New ["a", "a", "a", "b", "b"]) "a" (toInt 3)).2 =
      Count (New ["a", "a", "a", "b", "b"]) "a" ∧
    (Count (RemoveCount (New ["a", "a", "a", "b", "b"]) "a" (toInt 3)).1 "a").val = 0 ∧
    "a" ∉ (RemoveCount (New ["a", "a", "a", "b", "b"]) "a" (toInt 3)).1.elems.keys ∧
    Count (RemoveCount (New ["a", "a", "a", "b", "b"]) "a" (toInt 3)).1 "b" =
      Count (New ["a", "a", "a", "b", "b"]) "b" :=
  have hp : Positive (New ["a", "a", "a", "b", "b"]) := by decide
  have h := RemoveCount_spec (New ["a", "a", "a", "b", "b"]) hp "a" (toInt 3)
  have h3 := h.2.2 (by decide) (by decide)
  ⟨hp, h.1, h3.1, h3.2.1.mpr (by decide), h3.2.2 "b" (by decide)⟩

/-! ## Remove -/

theorem count_val_removeCount_self {m : Multiset α} (hm : Positive m) (e : α) {c : GoInt}
    (hc : 0 < c.val) :
    (Count (removeCount m e c).1 e).val = max 0 ((Count m e).val - c.val) := by
  cases h : m.elems.lookup e with
  | none =>
    rw [removeCount_absent m c h, Count_eq_index, index_of_lookup_none h, toInt_zero_val]
    exact (max_eq_left (by omega)).symm
  | some v =>
    have hvpos : 0 < v.val := (positive_iff_lookup m).mp hm e v h
    have hlk := lookup_removeCount_self m hc h
    rw [subInt_val_of_pos hvpos hc] at hlk
    rw [Count_eq_index, Count_eq_index, index_of_lookup_some h]
    by_cases hle : v.val - c.val ≤ 0
    · rw [if_pos hle] at hlk
      rw [index_of_lookup_none hlk, toInt_zero_val, max_eq_left hle]
    · rw [if_neg hle] at hlk
      rw [index_of_lookup_some hlk, subInt_val_of_pos hvpos hc,
        max_eq_right (le_of_lt (not_le.mp hle))]

theorem count_removeCount_ne (m : Multiset α) {e x : α} (c : GoInt) (hx : x ≠ e) :
    Count (removeCount m e c).1 x = Count m x := by
  simp only [Count_eq_index, index, lookup_removeCount_ne m c hx]

theorem count_val_nonneg {m : Multiset α} (hm : Positive m) (e : α) : 0 ≤ (Count m e).val := by
  rw [Count_eq_index]
  cases h : m.elems.lookup e with
  | none => rw [index_of_lookup_none h, toInt_zero_val]
  | some v =>
    rw [index_of_lookup_some h]
    exact le_of_lt ((positive_iff_lookup m).mp hm e v h)

/-- The loop of `Remove` started with an arbitrary value of `changed`. -/
theorem remove_foldl (s : List α) (m : Multiset α) (b : Bool) :
    s.foldl
        (fun (st : Multiset α × Bool) e =>
          let r := removeCount st.1 e (toInt 1)
          if 1 < r.2.val then (r.1, true) else (r.1, st.2))
        (m, b)
      = ((Remove m s).1, b || (Remove m s).2) := by
  induction s generalizing m b with
  | nil => simp [Remove]
  | cons x s ih =>
    unfold Remove
    simp only [List.foldl_cons]
    by_cases h : 1 < (removeCount m x (toInt 1)).2.val
    · simp only [h, if_true]
      rw [ih _ true]
      simp
    · simp only [h, if_false]
      rw [ih _ b, ih _ false]
      simp

theorem Remove_nil (m : Multiset α) : Remove m [] = (m, false) := rfl

theorem Remove_cons (m : Multiset α) (x : α) (s : List α) :
    Remove m (x :: s) =
      ((Remove (removeCount m x (toInt 1)).1 s).1,
        decide (1 < (Count m x).val) || (Remove (removeCount m x (toInt 1)).1 s).2) := by
  conv_lhs => unfold Remove
  simp only [List.foldl_cons]
  rw [← removeCount_snd m x (toInt 1)]
  by_cases h : 1 < (removeCount m x (toInt 1)).2.val
  · simp only [h, if_true]
    rw [remove_foldl]
    simp
  · simp only [h, if_false]
    rw [remove_foldl]
    simp

theorem positive_Remove {m : Multiset α} (hm : Positive m) (s : List α) :
    Positive (Remove m s).1 := by
  induction s generalizing m with
  | nil => exact hm
  | cons x s ih =>
    rw [Remove_cons]
    exact ih (positive_removeCount hm x (toInt 1))

theorem count_val_Remove {m : Multiset α} (hm : Positive m) (s : List α) (e : α) :
    (Count (Remove m s).1 e).val = max 0 ((Count m e).val - (s.count e : Int)) := by
  induction s generalizing m with
  | nil =>
    rw [Remove_nil]
    have := count_val_nonneg hm e
    simp only [List.count_nil, Nat.cast_zero, sub_zero]
    exact (max_eq_right this).symm
  | cons x s ih =>
    rw [Remove_cons]
    simp only []
    rw [ih (positive_removeCount hm x (toInt 1))]
    by_cases hx : e = x
    · subst hx
      rw [count_val_removeCount_self hm e (by decide), toInt_one_val, List.count_cons_self]
      push_cast
      omega
    · rw [count_removeCount_ne m (toInt 1) hx, List.count_cons_of_ne hx]

theorem lookup_none_Remove {m : Multiset α} (s : List α) {e : α}
    (h : m.elems.lookup e = none) : (Remove m s).1.elems.lookup e = none := by
  induction s generalizing m with
  | nil => exact h
  | cons x s ih =>
    rw [Remove_cons]
    apply ih
    by_cases hx : e = x
    · subst hx
      rw [removeCount_absent m (toInt 1) h]
      exact h
    · rw [lookup_removeCount_ne m (toInt 1) hx]
      exact h

/-- C3 (the code at the failing input): `Remove("a")` on `New("a")` takes the count of
`"a"` from 1 to 0, so the multiset changed, and returns false. -/
theorem Remove_last_occurrence_returns_false :
    (Count (New ["a"]) "a").val = 1 ∧
    (Count (Remove (New ["a"]) ["a"]).1 "a").val = 0 ∧
    (Remove (New ["a"]) ["a"]).2 = false := by
  decide

theorem Remove_snd_iff_step (m : Multiset α) (s : List α) :
    (Remove m s).2 = true ↔
      ∃ pre e post, s = pre ++ e :: post ∧ 1 < (Count (Remove m pre).1 e).val := by
  induction s generalizing m with
  | nil => simp [Remove_nil]
  | cons x s ih =>
    rw [Remove_cons]
    simp only [Bool.or_eq_true, decide_eq_true_eq]
    constructor
    · rintro (h | h)
      · exact ⟨[], x, s, rfl, h⟩
      · obtain ⟨pre, e, post, hs, hc⟩ := (ih _).mp h
        refine ⟨x :: pre, e, post, by rw [hs]; rfl, ?_⟩
        rw [Remove_cons]
        exact hc
    · rintro ⟨pre, e, post, hs, hc⟩
      cases pre with
      | nil =>
        simp only [List.nil_append, List.cons.injEq] at hs
        rw [Remove_nil] at hc
        left
        rw [hs.1]
        exact hc
      | cons y pre =>
        simp only [List.cons_append, List.cons.injEq] at hs
        rw [Remove_cons] at hc
        right
        rw [hs.1]
        exact (ih _).mpr ⟨pre, e, post, hs.2, hc⟩

theorem count_val_removeCount_le {m : Multiset α} (hm : Positive m) (x e : α) :
    (Count (removeCount m x (toInt 1)).1 e).val ≤ (Count m e).val := by
  by_cases hx : e = x
  · subst hx
    rw [count_val_removeCount_self hm e (by decide), toInt_one_val]
    have := count_val_nonneg hm e
    omega
  · rw [count_removeCount_ne m (toInt 1) hx]

theorem Remove_snd_iff_before {m : Multiset α} (hm : Positive m) (s : List α) :
    (Remove m s).2 = true ↔ ∃ e ∈ s, 1 < (Count m e).val := by
  induction s generalizing m with
  | nil => simp [Remove_nil]
  | cons x s ih =>
    rw [Remove_cons]
    simp only [Bool.or_eq_true, decide_eq_true_eq, List.mem_cons]
    rw [ih (positive_removeCount hm x (toInt 1))]
    constructor
    · rintro (h | ⟨e, hes, hc⟩)
      · exact ⟨x, Or.inl rfl, h⟩
      · exact ⟨e, Or.inr hes, lt_of_lt_of_le hc (count_val_removeCount_le hm x e)⟩
    · rintro ⟨e, (rfl | hes), hc⟩
      · exact Or.inl hc
      · by_cases hx : e = x
        · subst hx
          exact Or.inl hc
        · right
          refine ⟨e, hes, ?_⟩
          rw [count_removeCount_ne m (toInt 1) hx]
          exact hc

/-- C4: on a multiset whose stored counts are all positive, `Remove(s)` returns true if
and only if some element listed in `s` had a count greater than 1 immediately before its
occurrence was removed, if and only if some element of `s` has `Count > 1` before the
call; when every listed element has `Count <= 1` (a last occurrence, or absent) the
result is false. -/
theorem Remove_result_spec (m : Multiset α) (hm : Positive m) (s : List α) :
    ((Remove m s).2 = true ↔
      ∃ pre e post, s = pre ++ e :: post ∧ 1 < (Count (Remove m pre).1 e).val) ∧
    ((Remove m s).2 = true ↔ ∃ e ∈ s, 1 < (Count m e).val) ∧
    ((∀ e ∈ s, (Count m e).val ≤ 1) → (Remove m s).2 = false) := by
  refine ⟨Remove_snd_iff_step m s, Remove_snd_iff_before hm s, fun h => ?_⟩
  cases hr : (Remove m s).2 with
  | false => rfl
  | true =>
    obtain ⟨e, hes, hc⟩ := (Remove_snd_iff_before hm s).mp hr
    exact absurd (h e hes) (not_le.mpr hc)

/-- C4, at concrete inputs: removing `"a"` (held twice) and the absent `"z"` reports true;
removing `"b"` (held once) and the absent `"z"` reports false. -/
theorem Remove_result_spec_witness :
    Positive (New ["a", "a", "b"]) ∧
    (Remove (New ["a", "a", "b"]) ["z", "a"]).2 = true ∧
    (Remove (New ["a", "a", "b"]) ["b", "z"]).2 = false :=
  have hp : Positive (New ["a", "a", "b"]) := by decide
  ⟨hp,
    (Remove_result_spec (New ["a", "a", "b"]) hp ["z", "a"]).2.1.mpr
      ⟨"a", by decide, by decide⟩,
    (Remove_result_spec (New ["a", "a", "b"]) hp ["b", "z"]).2.2 (by decide)⟩

/-- C5: on a multiset whose stored counts are all positive, after `Remove(s)` the value of
`Count(e)` is `max(0, Count(e) before - occurrences of e in s)`; an element not listed in
`s` keeps its count, and an absent element stays absent. -/
theorem Remove_count_spec (m : Multiset α) (hm : Positive m) (s : List α) (e : α) :
    (Count (Remove m s).1 e).val = max 0 ((Count m e).val - (s.count e : Int)) ∧
    (e ∉ s → Count (Remove m s).1 e = Count m e) ∧
    (e ∉ m.elems.keys → e ∉ (Remove m s).1.elems.keys) := by
  refine ⟨count_val_Remove hm s e, fun hes => ?_, fun habs => ?_⟩
  · apply Subtype.ext
    rw [count_val_Remove hm s e, List.count_eq_zero_of_not_mem hes]
    have := count_val_nonneg hm e
    simp only [Nat.cast_zero, sub_zero]
    exact max_eq_right this
  · exact not_mem_keys_of_lookup_none
      (lookup_none_Remove s (lookup_none_of_not_mem_keys habs))

/-- C5, at a concrete input: the test `ExampleMultiset_Remove`, which leaves one `"a"` and
both `"b"`. -/
theorem Remove_count_spec_witness :
    Positive (New ["a", "a", "a", "b", "b"]) ∧
    (Count (Remove (New ["a", "a", "a", "b", "b"]) ["a", "a"]).1 "a").val = 1 ∧
    Count (Remove (New ["a", "a", "a", "b", "b"]) ["a", "a"]).1 "b" =
      Count (New ["a", "a", "a", "b", "b"]) "b" ∧
    "c" ∉ (Remove (New ["a", "a", "a", "b", "b"]) ["a", "a"]).1.elems.keys :=
  have hp : Positive (New ["a", "a", "a", "b", "b"]) := by decide
  have h := Remove_count_spec (New ["a", "a", "a", "b", "b"]) hp ["a", "a"]
  ⟨hp, (h "a").1, (h "b").2.1 (by decide), (h "c").2.2 (by decide)⟩

/-! ## Add, New and the sum of the counts -/

theorem wrapInt_wrapInt_add (a b : Int) : wrapInt (wrapInt a + b) = wrapInt (a + b) := by
  unfold wrapInt
  omega

theorem wrapInt_add_wrapInt (a b : Int) : wrapInt (a + wrapInt b) = wrapInt (a + b) := by
  unfold wrapInt
  omega

theorem Add_nil (m : Multiset α) : Add m [] = m := rfl

theorem Add_cons (m : Multiset α) (x : α) (s : List α) :
    Add m (x :: s) = Add (addCount m x (toInt 1)).1 s := rfl

theorem New_eq_Add (l : List α) : New l = Add ⟨∅⟩ l := rfl

theorem count_val_addCount_one (m : Multiset α) (e : α) :
    (Count (addCount m e (toInt 1)).1 e).val = wrapInt ((Count m e).val + 1) := by
  rw [Count_eq_index, Count_eq_index, index_addCount_self m e (by decide), addInt_val,
    toInt_one_val]

theorem count_addCount_ne (m : Multiset α) {e x : α} (c : GoInt) (hx : x ≠ e) :
    Count (addCount m e c).1 x = Count m x := by
  rw [Count_eq_index, Count_eq_index, index_addCount_ne m c hx]

theorem count_val_Add (m : Multiset α) (s : List α) (e : α) :
    (Count (Add m s) e).val = wrapInt ((Count m e).val + (s.count e : Int)) := by
  induction s generalizing m with
  | nil =>
    rw [Add_nil]
    simp only [List.count_nil, Nat.cast_zero, add_zero]
    exact (wrapInt_of_range (Count m e).2).symm
  | cons x s ih =>
    rw [Add_cons, ih]
    by_cases hx : e = x
    · subst hx
      rw [count_val_addCount_one, List.count_cons_self, wrapInt_wrapInt_add]
      push_cast
      congr 1
      ring
    · rw [count_addCount_ne m (toInt 1) hx, List.count_cons_of_ne hx]

theorem count_val_Add_of_le (m : Multiset α) (s : List α) (e : α)
    (h : (Count m e).val + (s.count e : Int) ≤ maxInt) :
    (Count (Add m s) e).val = (Count m e).val + (s.count e : Int) := by
  rw [count_val_Add]
  have h1 := (Count m e).2.1
  exact wrapInt_of_range ⟨by unfold minInt at *; omega, h⟩

theorem sum_kerase (e : α) (l : List (Sigma fun _ : α => GoInt)) :
    ((l.kerase e).map (fun p => p.2.val)).sum =
      (l.map (fun p => p.2.val)).sum - ((l.dlookup e).getD (toInt 0)).val := by
  induction l with
  | nil => simp [toInt_zero_val]
  | cons p l ih =>
    obtain ⟨k, w⟩ := p
    by_cases hk : e = k
    · subst hk
      have hk : List.kerase e ((⟨e, w⟩ : Sigma fun _ : α => GoInt) :: l) = l :=
        List.kerase_cons_eq rfl
      rw [hk, List.dlookup_cons_eq]
      simp
    · rw [List.kerase_cons_ne hk, List.dlookup_cons_ne l ⟨k, w⟩ hk]
      simp only [List.map_cons, List.sum_cons, ih]
      ring

theorem total_insert (m : Multiset α) (e : α) (v : GoInt) :
    total ⟨m.elems.insert e v⟩ = total m - (index m e).val + v.val := by
  unfold total index
  rw [AList.insert_entries]
  simp only [List.map_cons, List.sum_cons]
  rw [sum_kerase]
  unfold AList.lookup
  ring

theorem total_erase (m : Multiset α) (e : α) :
    total ⟨m.elems.erase e⟩ = total m - (index m e).val := by
  unfold total index AList.erase
  simp only
  rw [sum_kerase]
  rfl

omit [DecidableEq α] in
theorem size_foldl (l : List (Sigma fun _ : α => GoInt)) (a : GoInt) :
    (l.foldl (fun total p => addInt total p.2) a).val =
      wrapInt (a.val + (l.map (fun p => p.2.val)).sum) := by
  induction l generalizing a with
  | nil => simpa using (wrapInt_of_range a.2).symm
  | cons p l ih =>
    rw [List.foldl_cons, ih, addInt_val, wrapInt_wrapInt_add]
    simp only [List.map_cons, List.sum_cons]
    congr 1
    ring

omit [DecidableEq α] in
theorem size_val (m : Multiset α) : (Size m).val = wrapInt (total m) := by
  unfold Size size total
  rw [size_foldl, toInt_zero_val, zero_add]

theorem wrapInt_total_addCount (m : Multiset α) (e : α) {c : GoInt} (hc : 0 < c.val) :
    wrapInt (total (addCount m e c).1) = wrapInt (total m + c.val) := by
  rw [addCount_pos_fst m e hc, total_insert, addInt_val, wrapInt_add_wrapInt]
  congr 1
  ring

theorem size_val_Add (m : Multiset α) (s : List α) :
    (Size (Add m s)).val = wrapInt ((Size m).val + (s.length : Int)) := by
  induction s generalizing m with
  | nil =>
    rw [Add_nil]
    simp only [List.length_nil, Nat.cast_zero, add_zero]
    exact (wrapInt_of_range (Size m).2).symm
  | cons x s ih =>
    rw [Add_cons, ih, size_val, size_val, wrapInt_wrapInt_add, wrapInt_wrapInt_add,
      ← wrapInt_wrapInt_add (total _), wrapInt_total_addCount m x (by decide),
      wrapInt_wrapInt_add, toInt_one_val]
    simp only [List.length_cons]
    push_cast
    congr 1
    ring

/-! ## The occurrences produced by the loops of ToSlice -/

theorem count_flatMap_replicate (l : List (Sigma fun _ : α => GoInt)) (hl : l.NodupKeys)
    (x : α) :
    List.count x (l.flatMap (fun p => List.replicate p.2.val.toNat p.1)) =
      ((l.dlookup x).getD (toInt 0)).val.toNat := by
  induction l with
  | nil => simp [toInt_zero_val]
  | cons p l ih =>
    obtain ⟨k, w⟩ := p
    rw [List.nodupKeys_cons] at hl
    rw [List.flatMap_cons, List.count_append, ih hl.2]
    by_cases hk : x = k
    · subst hk
      rw [List.dlookup_cons_eq, List.dlookup_eq_none.mpr hl.1]
      simp [toInt_zero_val]
    · rw [List.dlookup_cons_ne l ⟨k, w⟩ hk, List.count_replicate]
      simp [Ne.symm hk]

theorem count_occurrences (m : Multiset α) (x : α) :
    List.count x (occurrences m) = (Count m x).val.toNat := by
  rw [Count_eq_index]
  exact count_flatMap_replicate m.elems.entries m.elems.nodupKeys x

theorem sum_nonneg_and_dlookup_le (l : List (Sigma fun _ : α => GoInt))
    (h : ∀ p ∈ l, 0 ≤ p.2.val) (x : α) :
    0 ≤ (l.map (fun p => p.2.val)).sum ∧
      ((l.dlookup x).getD (toInt 0)).val ≤ (l.map (fun p => p.2.val)).sum := by
  induction l with
  | nil => simp [toInt_zero_val]
  | cons p l ih =>
    obtain ⟨k, w⟩ := p
    have hw : 0 ≤ w.val := h ⟨k, w⟩ (List.mem_cons_self _ _)
    obtain ⟨h0, h1⟩ := ih (fun p hp => h p (List.mem_cons_of_mem _ hp))
    simp only [List.map_cons, List.sum_cons]
    refine ⟨by omega, ?_⟩
    by_cases hk : x = k
    · subst hk
      rw [List.dlookup_cons_eq]
      simp only [Option.getD_some]
      omega
    · rw [List.dlookup_cons_ne l ⟨k, w⟩ hk]
      omega

theorem entries_nonneg_of_count_nonneg {m : Multiset α} (h : ∀ x, 0 ≤ (Count m x).val) :
    ∀ p ∈ m.elems.entries, 0 ≤ p.2.val := by
  rintro ⟨k, w⟩ hp
  have hlk : m.elems.lookup k = some w := AList.mem_lookup_iff.mpr hp
  have := h k
  rwa [Count_eq_index, index_of_lookup_some hlk] at this

theorem total_nonneg_and_count_le {m : Multiset α} (h : ∀ x, 0 ≤ (Count m x).val) (x : α) :
    0 ≤ total m ∧ (Count m x).val ≤ total m := by
  rw [Count_eq_index]
  exact sum_nonneg_and_dlookup_le m.elems.entries (entries_nonneg_of_count_nonneg h) x

theorem occurrences_Add_perm (m : Multiset α) (s : List α)
    (h0 : ∀ x, 0 ≤ (Count m x).val)
    (h1 : ∀ x, (Count m x).val + (s.count x : Int) ≤ maxInt) :
    (occurrences (Add m s)).Perm (occurrences m ++ s) := by
  rw [List.perm_iff_count]
  intro x
  rw [List.count_append, count_occurrences, count_occurrences,
    count_val_Add_of_le m s x (h1 x)]
  have := h0 x
  omega

/-- C6 (as stated, refuted): on the multiset holding `maxInt` occurrences of an element,
`Add` of one more occurrence leaves `Count(e)` at `minInt`, not at the before-count plus
the number of occurrences of `e` in the argument. -/
theorem Add_overflow :
    (Count (Add (AddCount (New ([] : List Nat)) 7 (toInt maxInt)).1 [7]) 7).val = minInt ∧
      ¬ ((Count (Add (AddCount (New ([] : List Nat)) 7 (toInt maxInt)).1 [7]) 7).val
          = (Count (AddCount (New ([] : List Nat)) 7 (toInt maxInt)).1 7).val
            + ((List.count 7 [7] : Nat) : Int)) := by
  decide

/-- C6 (amended): after `Add(s)` the value of `Count(e)` is `Count(e)` before the call plus
the number of occurrences of `e` in `s`, in wrap-around `int` arithmetic, hence exactly
that sum whenever it is at most `maxInt`. When no count is negative and the sum of the
stored counts plus `len(s)` is at most `maxInt`, `ToSlice()` returns before and after the
call, and the slice after is a permutation of the slice before followed by `s`. -/
theorem Add_spec (m : Multiset α) (s : List α) (e : α) :
    (Count (Add m s) e).val = wrapInt ((Count m e).val + (s.count e : Int)) ∧
    ((Count m e).val + (s.count e : Int) ≤ maxInt →
      (Count (Add m s) e).val = (Count m e).val + (s.count e : Int)) ∧
    ((∀ x, 0 ≤ (Count m x).val) → total m + (s.length : Int) ≤ maxInt →
      ∃ before after, ToSlice m = some before ∧ ToSlice (Add m s) = some after ∧
        after.Perm (before ++ s)) := by
  refine ⟨count_val_Add m s e, count_val_Add_of_le m s e, fun h0 hle => ?_⟩
  have htot : 0 ≤ total m := (total_nonneg_and_count_le h0 e).1
  have hsize : (Size m).val = total m := by
    rw [size_val]
    exact wrapInt_of_range ⟨by unfold minInt; omega, by omega⟩
  have hsize2 : (Size (Add m s)).val = total m + (s.length : Int) := by
    rw [size_val_Add, hsize]
    exact wrapInt_of_range ⟨by unfold minInt; omega, hle⟩
  refine ⟨occurrences m, occurrences (Add m s), ?_, ?_, ?_⟩
  · unfold ToSlice
    rw [if_neg (by omega)]
  · unfold ToSlice
    rw [if_neg (by omega)]
  · apply occurrences_Add_perm m s h0
    intro x
    have h1 := (total_nonneg_and_count_le h0 x).2
    have h2 : ((s.count x : Nat) : Int) ≤ (s.length : Int) :=
      Int.ofNat_le.mpr (List.count_le_length _ _)
    omega

/-- C6, at a concrete input: the test `ExampleMultiset_Add`. -/
theorem Add_spec_witness :
    (Count (Add (New ["a", "a", "a"]) ["b", "b", "c", "d"]) "b").val = 2 ∧
    ∃ before after, ToSlice (New ["a", "a", "a"]) = some before ∧
      ToSlice (Add (New ["a", "a", "a"]) ["b", "b", "c", "d"]) = some after ∧
      after.Perm (before ++ ["b", "b", "c", "d"]) :=
  have h := fun e => Add_spec (New ["a", "a", "a"]) ["b", "b", "c", "d"] e
  ⟨(h "b").2.1 (by decide),
    (h "b").2.2
      (fun x => count_val_nonneg (by decide : Positive (New ["a", "a", "a"])) x)
      (by decide)⟩

/-! ## New -/

/-- C7: for a list `l` (of a length that fits an `int`, as every Go slice) and an element
`e`, `New(l).Count(e)` is the number of occurrences of `e` in `l`, which is 0 when `e` does
not occur in `l`, and `New(l).Size()` is the length of `l`; `New()` is the empty
multiset. -/
theorem New_spec (l : List α) (hl : (l.length : Int) ≤ maxInt) (e : α) :
    (Count (New l) e).val = (l.count e : Int) ∧
    (e ∉ l → (Count (New l) e).val = 0) ∧
    (Size (New l)).val = (l.length : Int) ∧
    New ([] : List α) = ⟨∅⟩ := by
  have hc : (Count (New l) e).val = (l.count e : Int) := by
    have h2 : ((l.count e : Nat) : Int) ≤ (l.length : Int) :=
      Int.ofNat_le.mpr (List.count_le_length _ _)
    rw [New_eq_Add, count_val_Add, Count_eq_index]
    simp only [index, AList.lookup_empty, Option.getD_none, toInt_zero_val, zero_add]
    exact wrapInt_of_range ⟨by unfold minInt; omega, by omega⟩
  refine ⟨hc, fun he => ?_, ?_, rfl⟩
  · rw [hc, List.count_eq_zero_of_not_mem he]
    rfl
  · rw [New_eq_Add, size_val_Add, size_val]
    have h0 : total (⟨∅⟩ : Multiset α) = 0 := rfl
    rw [h0]
    have h1 : wrapInt 0 = 0 := by decide
    rw [h1, zero_add]
    exact wrapInt_of_range ⟨by unfold minInt; omega, hl⟩

/-- C7, at a concrete input: the tests `ExampleMultiset_Count` and
`ExampleMultiset_Size`. -/
theorem New_spec_witness :
    (Count (New ["b", "b", "c", "d"]) "b").val = 2 ∧
    (Count (New ["b", "b", "c", "d"]) "a").val = 0 ∧
    (Size (New ["b", "b", "c", "d"])).val = 4 :=
  ⟨(New_spec ["b", "b", "c", "d"] (by decide) "b").1,
    (New_spec ["b", "b", "c", "d"] (by decide) "a").2.1 (by decide),
    (New_spec ["b", "b", "c", "d"] (by decide) "b").2.2.1⟩

/-! ## Contains -/

theorem contains_iff (m : Multiset α) (s : List α) :
    contains m s = true ↔ ∀ x ∈ s, 0 < (Count m x).val := by
  induction s with
  | nil => simp [contains]
  | cons x s ih =>
    unfold contains
    by_cases h : (count m [x]).val ≤ 0
    · rw [if_pos h]
      simp only [Bool.false_eq_true, List.mem_cons, forall_eq_or_imp, false_iff, not_and]
      intro h1
      exact absurd h1 (not_lt.mpr h)
    · rw [if_neg h, ih]
      simp only [List.mem_cons, forall_eq_or_imp]
      exact ⟨fun h1 => ⟨not_le.mp h, h1⟩, fun h1 => h1.2⟩

/-- C10: `Contains(s)` is true if and only if every element listed in `s` has `Count > 0`;
it is true for the empty list; and `Contains(e, e)` is true when `Count(e) == 1`. -/
theorem Contains_spec (m : Multiset α) (s : List α) (e : α) :
    (Contains m s = true ↔ ∀ x ∈ s, 0 < (Count m x).val) ∧
    Contains m [] = true ∧
    ((Count m e).val = 1 → Contains m [e, e] = true) := by
  refine ⟨contains_iff m s, rfl, fun h => ?_⟩
  apply (contains_iff m [e, e]).mpr
  intro x hx
  simp only [List.mem_cons, List.mem_singleton, List.not_mem_nil, or_false, or_self] at hx
  rw [hx, h]
  decide

/-- C10, at a concrete input: the test `ExampleMultiset_Contains`, and a doubled element
held once. -/
theorem Contains_spec_witness :
    Contains (New ["b", "b", "c", "d"]) ["b", "c", "d"] = true ∧
    Contains (New ["b", "b", "c", "d"]) ["c", "c"] = true :=
  ⟨(Contains_spec (New ["b", "b", "c", "d"]) ["b", "c", "d"] "c").1.mpr (by decide),
    (Contains_spec (New ["b", "b", "c", "d"]) ["b", "c", "d"] "c").2.2 (by decide)⟩

/-! ## Equals -/

theorem equalsLoop_iff (o : Multiset α) (l : List (Sigma fun _ : α => GoInt)) :
    equalsLoop o l = true ↔ ∀ p ∈ l, 0 < (Count o p.1).val ∧ Count o p.1 = p.2 := by
  induction l with
  | nil => simp [equalsLoop]
  | cons p l ih =>
    obtain ⟨k, v⟩ := p
    unfold equalsLoop
    have hc : contains o [k] = true ↔ 0 < (Count o k).val := by
      rw [contains_iff]
      simp
    by_cases h : 0 < (Count o k).val ∧ Count o k = v
    · have h1 : contains o [k] = true := hc.mpr h.1
      have h2 : count o [k] = v := h.2
      simp only [h1, h2, ne_eq, not_true_eq_false, decide_False, Bool.not_true, Bool.or_self,
        Bool.false_eq_true, if_false, ih, List.mem_cons, forall_eq_or_imp]
      exact ⟨fun h3 => ⟨h, h3⟩, fun h3 => h3.2⟩
    · have h3 : (!contains o [k] || decide (count o [k] ≠ v)) = true := by
        by_cases h1 : contains o [k] = true
        · have h2 : count o [k] ≠ v := fun h2 => h ⟨hc.mp h1, h2⟩
          simp [h2]
        · simp [h1]
      rw [if_pos h3]
      simp only [Bool.false_eq_true, List.mem_cons, forall_eq_or_imp, false_iff, not_and]
      intro h4
      exact absurd h4 h

theorem equals_iff (m o : Multiset α) :
    equals m o = true ↔
      m.elems.entries.length = o.elems.entries.length ∧
        ∀ p ∈ m.elems.entries, 0 < (Count o p.1).val ∧ Count o p.1 = p.2 := by
  unfold equals
  by_cases h : m.elems.entries.length = o.elems.entries.length
  · simp [h, equalsLoop_iff]
  · simp [h]

theorem mem_keys_of_count_pos {m : Multiset α} {e : α} (h : 0 < (Count m e).val) :
    e ∈ m.elems.keys := by
  by_contra hn
  rw [Count_eq_index, index_of_lookup_none (lookup_none_of_not_mem_keys hn),
    toInt_zero_val] at h
  exact lt_irrefl 0 h

theorem mem_keys_iff_count_pos {m : Multiset α} (hm : Positive m) (e : α) :
    e ∈ m.elems.keys ↔ 0 < (Count m e).val := by
  constructor
  · intro he
    obtain ⟨v, hv⟩ := lookup_isSome_of_mem_keys he
    rw [Count_eq_index, index_of_lookup_some hv]
    exact (positive_iff_lookup m).mp hm e v hv
  · exact mem_keys_of_count_pos

omit [DecidableEq α] in
theorem keys_length (m : Multiset α) : m.elems.keys.length = m.elems.entries.length := by
  unfold AList.keys List.keys
  exact List.length_map _ _

/-- What a true result of `equals` implies, for arbitrary stored counts. -/
theorem equals_true_imp {m o : Multiset α} (h : equals m o = true) :
    Positive m ∧ Positive o ∧ m.elems.keys.Perm o.elems.keys ∧
      ∀ e, Count m e = Count o e := by
  obtain ⟨hlen, hall⟩ := (equals_iff m o).mp h
  have hpm : Positive m := by
    intro p hp
    have := hall p hp
    rw [this.2] at this
    exact this.1
  have hsub : m.elems.keys ⊆ o.elems.keys := by
    intro k hk
    obtain ⟨v, hv⟩ := lookup_isSome_of_mem_keys hk
    exact mem_keys_of_count_pos (hall ⟨k, v⟩ (AList.mem_lookup_iff.mp hv)).1
  have hperm : m.elems.keys.Perm o.elems.keys :=
    (List.subperm_of_subset m.elems.keys_nodup hsub).perm_of_length_le
      (by rw [keys_length, keys_length, hlen])
  have hcount : ∀ e, Count m e = Count o e := by
    intro e
    cases hl : m.elems.lookup e with
    | some v =>
      have := (hall ⟨e, v⟩ (AList.mem_lookup_iff.mp hl)).2
      rw [this, Count_eq_index, index_of_lookup_some hl]
    | none =>
      have h1 : e ∉ o.elems.keys :=
        fun he => not_mem_keys_of_lookup_none hl (hperm.mem_iff.mpr he)
      rw [Count_eq_index, Count_eq_index, index_of_lookup_none hl,
        index_of_lookup_none (lookup_none_of_not_mem_keys h1)]
  refine ⟨hpm, ?_, hperm, hcount⟩
  rw [positive_iff_lookup]
  intro k w hw
  have hk : k ∈ m.elems.keys := hperm.mem_iff.mpr (mem_keys_of_lookup_some hw)
  have h1 := (mem_keys_iff_count_pos hpm k).mp hk
  rw [hcount k, Count_eq_index, index_of_lookup_some hw] at h1
  exact h1

/-- Equal counts make `equals` true when both maps store positive counts only. -/
theorem equals_of_count_eq {m o : Multiset α} (hm : Positive m) (ho : Positive o)
    (h : ∀ e, Count m e = Count o e) : equals m o = true := by
  rw [equals_iff]
  constructor
  · have hperm : m.elems.keys.Perm o.elems.keys := by
      rw [List.perm_ext_iff_of_nodup m.elems.keys_nodup o.elems.keys_nodup]
      intro e
      rw [mem_keys_iff_count_pos hm, mem_keys_iff_count_pos ho, h e]
    rw [← keys_length, ← keys_length]
    exact hperm.length_eq
  · rintro ⟨k, v⟩ hp
    have hl : m.elems.lookup k = some v := AList.mem_lookup_iff.mpr hp
    have hc : Count m k = v := by rw [Count_eq_index, index_of_lookup_some hl]
    have hv : 0 < v.val := hm ⟨k, v⟩ hp
    simp only
    rw [← h k, hc]
    exact ⟨hv, rfl⟩

theorem equals_comm (m o : Multiset α) : equals m o = equals o m := by
  cases h1 : equals m o with
  | true =>
    obtain ⟨hm, ho, _, hc⟩ := equals_true_imp h1
    exact (equals_of_count_eq ho hm (fun e => (hc e).symm)).symm
  | false =>
    cases h2 : equals o m with
    | false => rfl
    | true =>
      obtain ⟨ho, hm, _, hc⟩ := equals_true_imp h2
      rw [equals_of_count_eq hm ho (fun e => (hc e).symm)] at h1
      exact Bool.noConfusion h1

theorem positive_addCount {m : Multiset α} (hm : Positive m) (e : α) (c : GoInt)
    (hle : (Count m e).val + c.val ≤ maxInt) : Positive (addCount m e c).1 := by
  by_cases hc : c.val ≤ 0
  · rw [addCount_nonpos m e hc]
    exact hm
  · have hc0 : 0 < c.val := not_le.mp hc
    rw [addCount_pos_fst m e hc0, positive_iff_lookup]
    intro x w hw
    simp only at hw
    by_cases hx : x = e
    · subst hx
      rw [AList.lookup_insert] at hw
      cases hw
      have h0 := count_val_nonneg hm x
      rw [Count_eq_index] at h0 hle
      rw [addInt_val, wrapInt_of_range ⟨by unfold minInt; omega, hle⟩]
      omega
    · rw [AList.lookup_insert_ne hx] at hw
      exact (positive_iff_lookup m).mp hm x w hw

theorem positive_Add {m : Multiset α} (hm : Positive m) (s : List α)
    (hle : ∀ x, (Count m x).val + (s.count x : Int) ≤ maxInt) : Positive (Add m s) := by
  induction s generalizing m with
  | nil => exact hm
  | cons y s ih =>
    rw [Add_cons]
    have hy := hle y
    rw [List.count_cons_self] at hy
    push_cast at hy
    apply ih (positive_addCount hm y (toInt 1) (by rw [toInt_one_val]; omega))
    intro x
    by_cases hx : x = y
    · subst hx
      have h0 := count_val_nonneg hm x
      have h1 : (Count (addCount m x (toInt 1)).1 x).val = (Count m x).val + 1 := by
        rw [count_val_addCount_one]
        exact wrapInt_of_range ⟨by unfold minInt; omega, by omega⟩
      rw [h1]
      omega
    · have := hle x
      rw [List.count_cons_of_ne hx] at this
      rw [count_addCount_ne m (toInt 1) hx]
      exact this

omit [DecidableEq α] in
theorem positive_empty : Positive (⟨∅⟩ : Multiset α) := by
  intro p hp
  exact absurd hp (List.not_mem_nil p)

theorem count_val_empty (x : α) : (Count (⟨∅⟩ : Multiset α) x).val = 0 := by
  rw [Count_eq_index]
  simp [index, toInt_zero_val]

theorem positive_New (l : List α) (hl : (l.length : Int) ≤ maxInt) : Positive (New l) := by
  rw [New_eq_Add]
  apply positive_Add positive_empty
  intro x
  have h2 : ((l.count x : Nat) : Int) ≤ (l.length : Int) :=
    Int.ofNat_le.mpr (List.count_le_length _ _)
  rw [count_val_empty]
  omega

theorem count_val_New (l : List α) (hl : (l.length : Int) ≤ maxInt) (x : α) :
    (Count (New l) x).val = (l.count x : Int) := by
  have h2 : ((l.count x : Nat) : Int) ≤ (l.length : Int) :=
    Int.ofNat_le.mpr (List.count_le_length _ _)
  rw [New_eq_Add, count_val_Add_of_le _ _ _ (by rw [count_val_empty]; omega), count_val_empty,
    zero_add]

/-- C8 (as stated, refuted): two multisets reached from `New()` by `AddCount` calls, with
the same distinct elements and the same count for every element, for which `Equals`
returns false: the count of `"a"` has wrapped around to `minInt`. -/
theorem Equals_overflow :
    Equals (AddCount (AddCount (New []) "a" (toInt maxInt)).1 "a" (toInt 1)).1
        (AddCount (AddCount (New []) "a" (toInt 1)).1 "a" (toInt maxInt)).1 = false ∧
      DistinctElements (AddCount (AddCount (New []) "a" (toInt maxInt)).1 "a" (toInt 1)).1
        = DistinctElements (AddCount (AddCount (New []) "a" (toInt 1)).1 "a" (toInt maxInt)).1 ∧
      ∀ e, Count (AddCount (AddCount (New []) "a" (toInt maxInt)).1 "a" (toInt 1)).1 e
        = Count (AddCount (AddCount (New []) "a" (toInt 1)).1 "a" (toInt maxInt)).1 e := by
  refine ⟨by decide, by decide, fun e => ?_⟩
  have h : (AddCount (AddCount (New []) "a" (toInt maxInt)).1 "a" (toInt 1)).1.elems
      = (AddCount (AddCount (New []) "a" (toInt 1)).1 "a" (toInt maxInt)).1.elems :=
    AList.ext (by decide)
  simp only [Count, count, h]

/-- C8 (amended): for two multisets whose stored counts are all positive, `a.Equals(b)` is
true if and only if `a` and `b` have the same distinct elements and the same count for
every element; and `New(l1).Equals(New(l2))` is true whenever `l2` is a permutation of
`l1` (a list of a length that fits an `int`). -/
theorem Equals_spec (a b : Multiset α) (ha : Positive a) (hb : Positive b) :
    (Equals a b = true ↔
      (∀ e, e ∈ DistinctElements a ↔ e ∈ DistinctElements b) ∧
        ∀ e, Count a e = Count b e) ∧
    (∀ l1 l2 : List α, (l1.length : Int) ≤ maxInt → l2.Perm l1 →
      Equals (New l1) (New l2) = true) := by
  constructor
  · constructor
    · intro h
      obtain ⟨_, _, hperm, hc⟩ := equals_true_imp h
      exact ⟨fun e => hperm.mem_iff, hc⟩
    · rintro ⟨_, hc⟩
      exact equals_of_count_eq ha hb hc
  · intro l1 l2 hl hperm
    have hl2 : (l2.length : Int) ≤ maxInt := by rw [hperm.length_eq]; exact hl
    apply equals_of_count_eq (positive_New l1 hl) (positive_New l2 hl2)
    intro e
    apply Subtype.ext
    rw [count_val_New l1 hl, count_val_New l2 hl2, hperm.count_eq]

/-- C8, at a concrete input: the test `ExampleMultiset_Equals`. -/
theorem Equals_spec_witness :
    Positive (New ["b", "b", "c", "d"]) ∧ Positive (New ["c", "b", "d", "b"]) ∧
    Equals (New ["b", "b", "c", "d"]) (New ["c", "b", "d", "b"]) = true ∧
    ∀ e, Count (New ["b", "b", "c", "d"]) e = Count (New ["c", "b", "d", "b"]) e :=
  have ha : Positive (New ["b", "b", "c", "d"]) := by decide
  have hb : Positive (New ["c", "b", "d", "b"]) := by decide
  have h := Equals_spec (New ["b", "b", "c", "d"]) (New ["c", "b", "d", "b"]) ha hb
  have he : Equals (New ["b", "b", "c", "d"]) (New ["c", "b", "d", "b"]) = true :=
    h.2 ["b", "b", "c", "d"] ["c", "b", "d", "b"] (by decide) (by decide)
  ⟨ha, hb, he, (h.1.mp he).2⟩

/-- C9 (as stated, refuted): a multiset reached from `New()` by `AddCount` and `Add` that
`Equals` does not find equal to itself: the count of its element has wrapped around to
`minInt`. -/
theorem Equals_not_reflexive_after_overflow :
    Equals (Add (AddCount (New ([] : List Nat)) 7 (toInt maxInt)).1 [7])
      (Add (AddCount (New ([] : List Nat)) 7 (toInt maxInt)).1 [7]) = false := by
  decide

/-- C9 (amended): `Equals` is symmetric for all multisets, `a.Equals(b) == b.Equals(a)`;
and `a.Equals(a)` is true exactly for the multisets whose stored counts are all positive. -/
theorem Equals_symm_refl (a b : Multiset α) :
    Equals a b = Equals b a ∧ (Equals a a = true ↔ Positive a) :=
  ⟨equals_comm a b,
    fun h => (equals_true_imp h).1, fun h => equals_of_count_eq h h (fun _ => rfl)⟩

/-- C9, at a concrete input: the multisets of the test `ExampleMultiset_Equals`. -/
theorem Equals_symm_refl_witness :
    Equals (New ["b", "b", "c", "d"]) (New ["c", "b", "d", "b"])
      = Equals (New ["c", "b", "d", "b"]) (New ["b", "b", "c", "d"]) ∧
    Equals (New ["b", "b", "c", "d"]) (New ["b", "b", "c", "d"]) = true :=
  ⟨(Equals_symm_refl (New ["b", "b", "c", "d"]) (New ["c", "b", "d", "b"])).1,
    (Equals_symm_refl (New ["b", "b", "c", "d"]) (New ["c", "b", "d", "b"])).2.mpr
      (by decide)⟩

/-! ## Size, the invariant of the stored counts, Clear -/

theorem count_of_mem_entries {m : Multiset α} {p : Sigma fun _ : α => GoInt}
    (hp : p ∈ m.elems.entries) : Count m p.1 = p.2 := by
  obtain ⟨k, v⟩ := p
  rw [Count_eq_index, index_of_lookup_some (AList.mem_lookup_iff.mpr hp)]

theorem sumCounts_eq_total (m : Multiset α) : sumCounts m = total m := by
  unfold sumCounts total DistinctElements
  rw [List.map_map]
  congr 1
  apply List.map_congr_left
  intro p hp
  simp only [Function.comp_apply, count_of_mem_entries hp]

/-- C11 (as stated, refuted): after `AddCount("a", maxInt)` and `AddCount("b", maxInt)` on
the empty multiset, `Size()` is -2 while the counts of the distinct elements add up to
`2 * maxInt`. -/
theorem Size_overflow :
    (Size (run (New ([] : List String))
      [.addCount "a" (toInt maxInt), .addCount "b" (toInt maxInt)])).val = -2 ∧
    sumCounts (run (New ([] : List String))
      [.addCount "a" (toInt maxInt), .addCount "b" (toInt maxInt)]) = 18446744073709551614 := by
  decide

/-- C11 (amended): for every multiset (reachable or not), `Size()` is the sum of
`Count(e)` over the elements of `DistinctElements()` reduced by wrap-around into the range
of `int`; it is that sum itself whenever the sum lies in the range of `int`. -/
theorem Size_spec (m : Multiset α) :
    (Size m).val = wrapInt (sumCounts m) ∧
    (minInt ≤ sumCounts m → sumCounts m ≤ maxInt → (Size m).val = sumCounts m) := by
  rw [sumCounts_eq_total, size_val]
  exact ⟨rfl, fun h1 h2 => wrapInt_of_range ⟨h1, h2⟩⟩

/-- C11, at a concrete input: the test `ExampleMultiset_Size`. -/
theorem Size_spec_witness :
    (Size (New ["b", "b", "c", "d"])).val = sumCounts (New ["b", "b", "c", "d"]) :=
  (Size_spec (New ["b", "b", "c", "d"])).2 (by decide) (by decide)

theorem op_apply_positive {m : Multiset α} (hm : Positive m) (op : Op α)
    (h : op.NoOverflow m) : Positive (op.apply m) := by
  cases op with
  | add s =>
    apply positive_Add hm s
    intro x
    by_cases hx : x ∈ s
    · exact h x hx
    · rw [List.count_eq_zero_of_not_mem hx]
      simpa using (Count m x).2.2
  | addCount e c => exact positive_addCount hm e c h
  | remove s => exact positive_Remove hm s
  | removeCount e c => exact positive_removeCount hm e c
  | clear => exact positive_empty

theorem run_positive {m : Multiset α} (hm : Positive m) (ops : List (Op α))
    (h : NoOverflow m ops) : Positive (run m ops) := by
  induction ops generalizing m with
  | nil => exact hm
  | cons op ops ih => exact ih (op_apply_positive hm op h.1) h.2

/-- C12 (as stated, refuted): `AddCount("a", maxInt)` followed by `AddCount("a", 1)` on
the empty multiset stores the count `minInt` for `"a"`: a reachable multiset with a stored
count that is not positive, and a negative `Count("a")`. -/
theorem stored_count_overflow :
    Reachable (run (New ([] : List String))
      [.addCount "a" (toInt maxInt), .addCount "a" (toInt 1)]) ∧
    ¬ Positive (run (New ([] : List String))
      [.addCount "a" (toInt maxInt), .addCount "a" (toInt 1)]) ∧
    (Count (run (New ([] : List String))
      [.addCount "a" (toInt maxInt), .addCount "a" (toInt 1)]) "a").val = minInt :=
  ⟨⟨[], _, rfl⟩, by decide, by decide⟩

/-- C12 (amended): for every multiset reached from `New` by a sequence of `Add`,
`AddCount`, `Remove`, `RemoveCount` and `Clear` calls in which no `Add` or `AddCount` takes
a count beyond `maxInt`, every count stored in the map is > 0 and `Count(e) >= 0` for
every element `e`. -/
theorem stored_counts_positive (l : List α) (ops : List (Op α))
    (hl : (l.length : Int) ≤ maxInt) (h : NoOverflow (New l) ops) :
    Positive (run (New l) ops) ∧ ∀ e, 0 ≤ (Count (run (New l) ops) e).val :=
  have hp := run_positive (positive_New l hl) ops h
  ⟨hp, count_val_nonneg hp⟩

/-- C12, at a concrete input: a sequence of calls of all five methods. -/
theorem stored_counts_positive_witness :
    NoOverflow (New ["a", "b"])
      [.add ["a", "c"], .removeCount "a" (toInt 5), .addCount "d" (toInt (-3)),
        .remove ["b", "z"], .addCount "c" (toInt 4), .clear, .addCount "a" (toInt 2)] ∧
    Positive (run (New ["a", "b"])
      [.add ["a", "c"], .removeCount "a" (toInt 5), .addCount "d" (toInt (-3)),
        .remove ["b", "z"], .addCount "c" (toInt 4), .clear, .addCount "a" (toInt 2)]) :=
  have h : NoOverflow (New ["a", "b"])
      [.add ["a", "c"], .removeCount "a" (toInt 5), .addCount "d" (toInt (-3)),
        .remove ["b", "z"], .addCount "c" (toInt 4), .clear, .addCount "a" (toInt 2)] := by
    simp only [NoOverflow, Op.NoOverflow, and_true]
    decide
  ⟨h, (stored_counts_positive ["a", "b"] _ (by decide) h).1⟩

/-- C13: after `Clear()` the multiset is empty: `Size() == 0`, `IsEmpty()` is true,
`ToSlice()` returns the empty slice, `DistinctElements()` is empty and `Count(e) == 0` for
every element `e`. -/
theorem Clear_spec (m : Multiset α) (e : α) :
    (Size (Clear m)).val = 0 ∧
    IsEmpty (Clear m) = true ∧
    ToSlice (Clear m) = some [] ∧
    DistinctElements (Clear m) = [] ∧
    (Count (Clear m) e).val = 0 := by
  have hs : (Size (Clear m)).val = 0 := toInt_zero_val
  refine ⟨hs, ?_, ?_, rfl, count_val_empty e⟩
  · unfold IsEmpty
    exact decide_eq_true hs
  · unfold ToSlice
    rw [if_neg (by rw [hs]; decide)]
    rfl

/-! ## Removal to zero, DistinctElements, IsEmpty -/

omit [DecidableEq α] in
theorem DistinctElements_eq_keys (m : Multiset α) : DistinctElements m = m.elems.keys := rfl

theorem subInt_self_val (v : GoInt) : (subInt v v).val = 0 := by
  rw [subInt_val, sub_self]
  decide

theorem lookup_removeCount_all (m : Multiset α) (e : α) (h : 0 < (Count m e).val) :
    (removeCount m e (Count m e)).1.elems.lookup e = none := by
  obtain ⟨v, hv⟩ := lookup_isSome_of_mem_keys (mem_keys_of_count_pos h)
  have hc : Count m e = v := by rw [Count_eq_index, index_of_lookup_some hv]
  rw [hc] at h ⊢
  rw [lookup_removeCount_self m h hv, if_pos (le_of_eq (subInt_self_val v))]

/-- C14 (as stated, refuted): on the reachable multiset that stores the count `minInt`
for `"a"`, `RemoveCount("a", Count("a"))` changes nothing and `"a"` still occurs in
`DistinctElements()`. -/
theorem RemoveCount_all_keeps_entry_after_overflow :
    "a" ∈ DistinctElements
      (RemoveCount
        (run (New ([] : List String)) [.addCount "a" (toInt maxInt), .addCount "a" (toInt 1)])
        "a"
        (Count
          (run (New ([] : List String))
            [.addCount "a" (toInt maxInt), .addCount "a" (toInt 1)])
          "a")).1 := by
  decide

/-- C14 (amended): for every multiset and element `e`, after `RemoveCount(e, Count(e))`
the call `Contains(e)` returns false; and when the stored counts are all positive, `e`
does not occur in `DistinctElements()`. -/
theorem RemoveCount_all_spec (m : Multiset α) (e : α) :
    Contains (RemoveCount m e (Count m e)).1 [e] = false ∧
    (Positive m → e ∉ DistinctElements (RemoveCount m e (Count m e)).1) := by
  have hcontains : ∀ (m0 : Multiset α), ¬ 0 < (Count m0 e).val → Contains m0 [e] = false := by
    intro m0 h0
    cases hc : Contains m0 [e] with
    | false => rfl
    | true => exact absurd ((contains_iff m0 [e]).mp hc e (List.mem_singleton_self e)) h0
  by_cases h : 0 < (Count m e).val
  · have hl := lookup_removeCount_all m e h
    refine ⟨hcontains _ ?_, fun _ => not_mem_keys_of_lookup_none hl⟩
    have hi : index (RemoveCount m e (Count m e)).1 e = toInt 0 := index_of_lookup_none hl
    rw [Count_eq_index, hi, toInt_zero_val]
    exact lt_irrefl 0
  · have hm : (RemoveCount m e (Count m e)).1 = m := removeCount_nonpos m e (not_lt.mp h)
    rw [hm]
    exact ⟨hcontains m h, fun hp he => h ((mem_keys_iff_count_pos hp e).mp he)⟩

/-- C14, at a concrete input: all three occurrences of `"a"` removed. -/
theorem RemoveCount_all_spec_witness :
    Contains (RemoveCount (New ["a", "a", "a", "b"]) "a"
      (Count (New ["a", "a", "a", "b"]) "a")).1 ["a"] = false ∧
    "a" ∉ DistinctElements (RemoveCount (New ["a", "a", "a", "b"]) "a"
      (Count (New ["a", "a", "a", "b"]) "a")).1 :=
  ⟨(RemoveCount_all_spec (New ["a", "a", "a", "b"]) "a").1,
    (RemoveCount_all_spec (New ["a", "a", "a", "b"]) "a").2 (by decide)⟩

/-- C16 (as stated, refuted): on the reachable multiset that stores the count `minInt`
for `"a"`, the element `"a"` occurs in `DistinctElements()` and `Count("a")` is not
positive. -/
theorem DistinctElements_overflow :
    "a" ∈ DistinctElements
      (run (New ([] : List String)) [.addCount "a" (toInt maxInt), .addCount "a" (toInt 1)]) ∧
    ¬ 0 < (Count
      (run (New ([] : List String)) [.addCount "a" (toInt maxInt), .addCount "a" (toInt 1)])
      "a").val := by
  decide

/-- C16 (amended): for every multiset `DistinctElements()` contains no duplicates; and
when the stored counts are all positive, an element `e` occurs in it if and only if
`Count(e) > 0`. -/
theorem DistinctElements_spec (m : Multiset α) :
    (DistinctElements m).Nodup ∧
    (Positive m → ∀ e, e ∈ DistinctElements m ↔ 0 < (Count m e).val) :=
  ⟨m.elems.keys_nodup, fun hp e => mem_keys_iff_count_pos hp e⟩

/-- C16, at a concrete input: the test `ExampleMultiset_DistinctElements`. -/
theorem DistinctElements_spec_witness :
    (DistinctElements
      (run (New ([] : List String)) [.addCount "a" (toInt 3), .addCount "b" (toInt 2)])).Nodup ∧
    "a" ∈ DistinctElements
      (run (New ([] : List String)) [.addCount "a" (toInt 3), .addCount "b" (toInt 2)]) ∧
    "c" ∉ DistinctElements
      (run (New ([] : List String)) [.addCount "a" (toInt 3), .addCount "b" (toInt 2)]) :=
  have h := DistinctElements_spec
    (run (New ([] : List String)) [.addCount "a" (toInt 3), .addCount "b" (toInt 2)])
  ⟨h.1, (h.2 (by decide) "a").mpr (by decide),
    fun hc => absurd ((h.2 (by decide) "c").mp hc) (by decide)⟩

theorem count_zero_iff_keys_nil {m : Multiset α} (hm : Positive m) :
    (∀ e, (Count m e).val = 0) ↔ DistinctElements m = [] := by
  rw [DistinctElements_eq_keys]
  constructor
  · intro h
    cases hk : m.elems.keys with
    | nil => rfl
    | cons k ks =>
      have hmem : k ∈ m.elems.keys := by rw [hk]; exact List.mem_cons_self k ks
      have := (mem_keys_iff_count_pos hm k).mp hmem
      rw [h k] at this
      exact absurd this (lt_irrefl 0)
  · intro h e
    have hn : e ∉ m.elems.keys := by rw [h]; exact List.not_mem_nil e
    rw [Count_eq_index, index_of_lookup_none (lookup_none_of_not_mem_keys hn), toInt_zero_val]

omit [DecidableEq α] in
theorem total_nonneg {m : Multiset α} (hm : Positive m) : 0 ≤ total m := by
  unfold total
  apply List.sum_nonneg
  intro x hx
  obtain ⟨p, hp, rfl⟩ := List.mem_map.mp hx
  exact le_of_lt (hm p hp)

omit [DecidableEq α] in
theorem size_val_of_total_le {m : Multiset α} (hm : Positive m) (hle : total m ≤ maxInt) :
    (Size m).val = total m := by
  have h0 := total_nonneg hm
  rw [size_val]
  exact wrapInt_of_range ⟨by unfold minInt; omega, hle⟩

theorem total_eq_zero_iff {m : Multiset α} (hm : Positive m) :
    total m = 0 ↔ ∀ e, (Count m e).val = 0 := by
  constructor
  · intro h e
    have h1 := total_nonneg_and_count_le (count_val_nonneg hm) e
    have h2 := count_val_nonneg hm e
    omega
  · intro h
    have hk := (count_zero_iff_keys_nil hm).mp h
    rw [DistinctElements_eq_keys] at hk
    have he : m.elems.entries = [] := by
      have hlen := keys_length m
      rw [hk] at hlen
      exact List.length_eq_zero.mp hlen.symm
    unfold total
    rw [he]
    rfl

/-- C17 (as stated, refuted): after `AddCount("a", maxInt)`, `AddCount("b", maxInt)` and
`AddCount("c", 2)` on the empty multiset, no stored count has overflowed, the sum computed
by `size` wraps around to 0 and `IsEmpty()` is true, while `Count("c")` is 2 and
`DistinctElements()` is not empty. -/
theorem IsEmpty_overflow :
    IsEmpty (run (New ([] : List String))
      [.addCount "a" (toInt maxInt), .addCount "b" (toInt maxInt), .addCount "c" (toInt 2)])
        = true ∧
    (Count (run (New ([] : List String))
      [.addCount "a" (toInt maxInt), .addCount "b" (toInt maxInt), .addCount "c" (toInt 2)])
        "c").val = 2 ∧
    DistinctElements (run (New ([] : List String))
      [.addCount "a" (toInt maxInt), .addCount "b" (toInt maxInt), .addCount "c" (toInt 2)])
        ≠ [] := by
  decide

/-- C17 (amended): for every multiset `IsEmpty()` is true if and only if `Size() == 0`;
and when the stored counts are all positive and their sum is at most `maxInt`, `Size() == 0`
if and only if `Count(e) == 0` for every element `e`, if and only if `DistinctElements()`
is empty. -/
theorem IsEmpty_spec (m : Multiset α) :
    (IsEmpty m = true ↔ (Size m).val = 0) ∧
    (Positive m → total m ≤ maxInt →
      ((Size m).val = 0 ↔ ∀ e, (Count m e).val = 0) ∧
      ((∀ e, (Count m e).val = 0) ↔ DistinctElements m = [])) := by
  constructor
  · unfold IsEmpty Size
    exact decide_eq_true_iff
  · intro hm hle
    rw [size_val_of_total_le hm hle]
    exact ⟨total_eq_zero_iff hm, count_zero_iff_keys_nil hm⟩

/-- C17, at a concrete input: the test `ExampleMultiset_IsEmpty`, and the empty
multiset. -/
theorem IsEmpty_spec_witness :
    (IsEmpty (New ["b", "b", "c", "d"]) = true ↔ (Size (New ["b", "b", "c", "d"])).val = 0) ∧
    DistinctElements (New ([] : List String)) = [] :=
  ⟨(IsEmpty_spec (New ["b", "b", "c", "d"])).1,
    ((IsEmpty_spec (New ([] : List String))).2 (by decide) (by decide)).2.mp
      (fun e => count_val_empty e)⟩

/-! ## ToSlice and Iter -/

omit [DecidableEq α] in
theorem length_flatMap_replicate (l : List (Sigma fun _ : α => GoInt))
    (h : ∀ p ∈ l, 0 ≤ p.2.val) :
    ((l.flatMap (fun p => List.replicate p.2.val.toNat p.1)).length : Int) =
      (l.map (fun p => p.2.val)).sum := by
  induction l with
  | nil => rfl
  | cons p l ih =>
    have hp : 0 ≤ p.2.val := h p (List.mem_cons_self _ _)
    rw [List.flatMap_cons, List.length_append, List.length_replicate, List.map_cons,
      List.sum_cons, Nat.cast_add, ih (fun q hq => h q (List.mem_cons_of_mem _ hq)),
      Int.toNat_of_nonneg hp]

omit [DecidableEq α] in
theorem length_occurrences {m : Multiset α} (hm : Positive m) :
    ((occurrences m).length : Int) = total m :=
  length_flatMap_replicate m.elems.entries (fun p hp => le_of_lt (hm p hp))

theorem count_occurrences_cast {m : Multiset α} (hm : Positive m) (e : α) :
    ((List.count e (occurrences m) : Nat) : Int) = (Count m e).val := by
  rw [count_occurrences, Int.toNat_of_nonneg (count_val_nonneg hm e)]

omit [DecidableEq α] in
theorem ToSlice_of_total_le {m : Multiset α} (hm : Positive m) (hle : total m ≤ maxInt) :
    ToSlice m = some (occurrences m) := by
  unfold ToSlice
  rw [if_neg]
  rw [size_val_of_total_le hm hle]
  exact not_lt.mpr (total_nonneg hm)

theorem occurrences_New_perm (l : List α) (hl : (l.length : Int) ≤ maxInt) :
    (occurrences (New l)).Perm l := by
  rw [List.perm_iff_count]
  intro e
  have h := count_occurrences_cast (positive_New l hl) e
  rw [count_val_New l hl e] at h
  exact Int.ofNat_inj.mp h

/-- C15 (as stated, refuted): after `AddCount("a", maxInt)` twice and `AddCount("b", 2)`
on the empty multiset, `ToSlice()` returns `[b b]`: `"a"` does not occur in it although
`Count("a")` is -2, and its length is 2 although `Size()` is 0. -/
theorem ToSlice_overflow :
    ToSlice (run (New ([] : List String))
      [.addCount "a" (toInt maxInt), .addCount "a" (toInt maxInt), .addCount "b" (toInt 2)])
        = some ["b", "b"] ∧
    (Count (run (New ([] : List String))
      [.addCount "a" (toInt maxInt), .addCount "a" (toInt maxInt), .addCount "b" (toInt 2)])
        "a").val = -2 ∧
    (Size (run (New ([] : List String))
      [.addCount "a" (toInt maxInt), .addCount "a" (toInt maxInt), .addCount "b" (toInt 2)])).val
        = 0 := by
  decide

/-- C15 (amended): for every multiset whose stored counts are all positive and add up to
at most `maxInt`, `ToSlice()` returns a slice in which every element `e` occurs exactly
`Count(e)` times and whose length is `Size()`, and the sequence drained from `Iter()`,
whatever the order in which the map is visited, is a permutation of it. For a list `l`
(of a length that fits an `int`), `New(l).ToSlice()` and the drained `New(l).Iter()` are
permutations of `l`. -/
theorem ToSlice_Iter_spec (m : Multiset α) :
    (Positive m → total m ≤ maxInt →
      ∃ sl, ToSlice m = some sl ∧
        (∀ e, ((sl.count e : Nat) : Int) = (Count m e).val) ∧
        (sl.length : Int) = (Size m).val ∧
        ∀ ord, ord.Perm m.elems.entries → (Iter m ord).Perm sl) ∧
    (∀ l : List α, (l.length : Int) ≤ maxInt →
      ∃ sl, ToSlice (New l) = some sl ∧ sl.Perm l ∧
        ∀ ord, ord.Perm (New l).elems.entries → (Iter (New l) ord).Perm l) := by
  constructor
  · intro hm hle
    refine ⟨occurrences m, ToSlice_of_total_le hm hle, count_occurrences_cast hm, ?_,
      fun ord hord => List.Perm.flatMap_right _ hord⟩
    rw [length_occurrences hm, size_val_of_total_le hm hle]
  · intro l hl
    have hp := positive_New l hl
    have hperm := occurrences_New_perm l hl
    have htot : total (New l) ≤ maxInt := by
      rw [← length_occurrences hp, hperm.length_eq]
      exact hl
    exact ⟨occurrences (New l), ToSlice_of_total_le hp htot, hperm,
      fun ord hord => (List.Perm.flatMap_right _ hord).trans hperm⟩

/-- C15, at a concrete input: the test `ExampleNew`. -/
theorem ToSlice_Iter_spec_witness :
    (∃ sl, ToSlice (New ["a", "a", "b"]) = some sl ∧
      (∀ e, ((sl.count e : Nat) : Int) = (Count (New ["a", "a", "b"]) e).val) ∧
      (sl.length : Int) = (Size (New ["a", "a", "b"])).val ∧
      ∀ ord, ord.Perm (New ["a", "a", "b"]).elems.entries →
        (Iter (New ["a", "a", "b"]) ord).Perm sl) ∧
    ∃ sl, ToSlice (New ["a", "a", "b"]) = some sl ∧ sl.Perm ["a", "a", "b"] ∧
      ∀ ord, ord.Perm (New ["a", "a", "b"]).elems.entries →
        (Iter (New ["a", "a", "b"]) ord).Perm ["a", "a", "b"] :=
  ⟨(ToSlice_Iter_spec (New ["a", "a", "b"])).1 (by decide) (by decide),
    (ToSlice_Iter_spec (New ["a", "a", "b"])).2 ["a", "a", "b"] (by decide)⟩

/-! ## Add followed by Remove, and the change of Size -/

theorem add_no_overflow_all (m : Multiset α) (s : List α)
    (h : ∀ x ∈ s, (Count m x).val + (s.count x : Int) ≤ maxInt) (x : α) :
    (Count m x).val + (s.count x : Int) ≤ maxInt := by
  by_cases hx : x ∈ s
  · exact h x hx
  · rw [List.count_eq_zero_of_not_mem hx]
    simpa using (Count m x).2.2

/-- C19 (as stated, refuted): on the reachable multiset holding `maxInt` occurrences of an
element, `Add` of two more occurrences followed by `Remove` of the same two leaves
`Count` at 0 instead of `maxInt`: the count wraps around and the entry is deleted. -/
theorem Add_Remove_overflow :
    (Count (run (New ([] : List Nat)) [.addCount 7 (toInt maxInt)]) 7).val = maxInt ∧
    (Count (Remove (Add (run (New ([] : List Nat)) [.addCount 7 (toInt maxInt)]) [7, 7])
      [7, 7]).1 7).val = 0 := by
  decide

/-- C19 (amended): for every multiset `m` whose stored counts are all positive and every
list `s` such that no element's count plus its number of occurrences in `s` exceeds
`maxInt`, after `Add(s)` and then `Remove(s)` the value of `Count(e)` is as before the two
calls for every element `e`, and the result `Equals` the original multiset. -/
theorem Add_Remove_round_trip (m : Multiset α) (s : List α) (hm : Positive m)
    (hle : ∀ x ∈ s, (Count m x).val + (s.count x : Int) ≤ maxInt) :
    (∀ e, Count (Remove (Add m s) s).1 e = Count m e) ∧
    Equals (Remove (Add m s) s).1 m = true := by
  have hall := add_no_overflow_all m s hle
  have hpa : Positive (Add m s) := positive_Add hm s hall
  have hcount : ∀ e, Count (Remove (Add m s) s).1 e = Count m e := by
    intro e
    apply Subtype.ext
    rw [count_val_Remove hpa s e, count_val_Add_of_le m s e (hall e)]
    have := count_val_nonneg hm e
    omega
  exact ⟨hcount, equals_of_count_eq (positive_Remove hpa s) hm hcount⟩

/-- C19, at a concrete input: the lists of the test `ExampleMultiset_Add`. -/
theorem Add_Remove_round_trip_witness :
    Positive (New ["a", "a", "a"]) ∧
    (∀ e, Count (Remove (Add (New ["a", "a", "a"]) ["b", "b", "c", "d"])
      ["b", "b", "c", "d"]).1 e = Count (New ["a", "a", "a"]) e) ∧
    Equals (Remove (Add (New ["a", "a", "a"]) ["b", "b", "c", "d"])
      ["b", "b", "c", "d"]).1 (New ["a", "a", "a"]) = true :=
  have hp : Positive (New ["a", "a", "a"]) := by decide
  ⟨hp, Add_Remove_round_trip (New ["a", "a", "a"]) ["b", "b", "c", "d"] hp (by decide)⟩

theorem wrapInt_wrapInt_sub (a b : Int) : wrapInt (wrapInt a - b) = wrapInt (a - b) := by
  unfold wrapInt
  omega

theorem total_removeCount {m : Multiset α} (hm : Positive m) (e : α) {c : GoInt}
    (hc : 0 < c.val) :
    total (removeCount m e c).1 = total m - min c.val (Count m e).val := by
  cases h : m.elems.lookup e with
  | none =>
    rw [removeCount_absent m c h, Count_eq_index, index_of_lookup_none h, toInt_zero_val,
      min_eq_right (le_of_lt hc), sub_zero]
  | some v =>
    have hv : 0 < v.val := (positive_iff_lookup m).mp hm e v h
    have hsub := subInt_val_of_pos hv hc
    have hi : index m e = v := index_of_lookup_some h
    rw [removeCount_present m hc h, Count_eq_index, hi]
    by_cases hle : (subInt v c).val ≤ 0
    · rw [if_pos hle]
      have h1 := total_erase ⟨m.elems.insert e (subInt v c)⟩ e
      simp only at h1
      rw [h1, total_insert, index_insert_self, hi]
      rw [hsub] at hle
      rw [min_eq_right (by omega)]
      ring
    · rw [if_neg hle, total_insert, hi, hsub]
      rw [hsub] at hle
      rw [min_eq_left (by omega)]
      ring

/-- C20 (as stated, refuted): on the reachable multiset holding `maxInt` occurrences of
`"a"`, `AddCount("b", 1)` takes `Size()` from `maxInt` to `minInt`, not to `maxInt + 1`. -/
theorem Size_AddCount_overflow :
    (Size (run (New ([] : List String)) [.addCount "a" (toInt maxInt)])).val = maxInt ∧
    (Size (AddCount (run (New ([] : List String)) [.addCount "a" (toInt maxInt)]) "b"
      (toInt 1)).1).val = minInt := by
  decide

/-- C20 (amended): for every multiset, element `e` and `c > 0`, `AddCount(e, c)` takes
`Size()` to `Size() + c` reduced by wrap-around, which is `Size() + c` itself when that is
at most `maxInt`; and when the stored counts are all positive, `RemoveCount(e, c)` takes
`Size()` to `Size() - min(c, Count(e))` reduced by wrap-around, which is
`Size() - min(c, Count(e))` itself when that is at least `minInt`, as it is whenever the
stored counts add up to at most `maxInt`. -/
theorem Size_change_spec (m : Multiset α) (e : α) (c : GoInt) (hc : 0 < c.val) :
    (Size (AddCount m e c).1).val = wrapInt ((Size m).val + c.val) ∧
    ((Size m).val + c.val ≤ maxInt →
      (Size (AddCount m e c).1).val = (Size m).val + c.val) ∧
    (Positive m →
      (Size (RemoveCount m e c).1).val
        = wrapInt ((Size m).val - min c.val (Count m e).val) ∧
      (minInt ≤ (Size m).val - min c.val (Count m e).val →
        (Size (RemoveCount m e c).1).val = (Size m).val - min c.val (Count m e).val) ∧
      (total m ≤ maxInt →
        (Size (RemoveCount m e c).1).val = (Size m).val - min c.val (Count m e).val)) := by
  have hadd : (Size (AddCount m e c).1).val = wrapInt ((Size m).val + c.val) := by
    unfold AddCount
    rw [size_val, size_val, wrapInt_total_addCount m e hc, wrapInt_wrapInt_add]
  refine ⟨hadd, fun hle => ?_, fun hm => ?_⟩
  · rw [hadd]
    have := (Size m).2.1
    exact wrapInt_of_range ⟨by unfold minInt at *; omega, hle⟩
  · have hrem : (Size (RemoveCount m e c).1).val
        = wrapInt ((Size m).val - min c.val (Count m e).val) := by
      unfold RemoveCount
      rw [size_val, size_val, total_removeCount hm e hc, wrapInt_wrapInt_sub]
    have h0 := count_val_nonneg hm e
    have hmin : 0 ≤ min c.val (Count m e).val := le_min (le_of_lt hc) h0
    have hexact : minInt ≤ (Size m).val - min c.val (Count m e).val →
        (Size (RemoveCount m e c).1).val = (Size m).val - min c.val (Count m e).val := by
      intro hge
      rw [hrem]
      have := (Size m).2.2
      exact wrapInt_of_range ⟨hge, by omega⟩
    refine ⟨hrem, hexact, fun htot => hexact ?_⟩
    rw [size_val_of_total_le hm htot]
    have h1 := (total_nonneg_and_count_le (count_val_nonneg hm) e).2
    have h2 : min c.val (Count m e).val ≤ (Count m e).val := min_le_right _ _
    unfold minInt
    omega

/-- C20, at a concrete input: two occurrences of `"b"` added to, and five of `"a"` removed
from, the multiset of the test `ExampleMultiset_RemoveCount`. -/
theorem Size_change_spec_witness :
    (Size (AddCount (New ["a", "a", "a", "b", "b"]) "b" (toInt 2)).1).val
      = (Size (New ["a", "a", "a", "b", "b"])).val + 2 ∧
    (Size (RemoveCount (New ["a", "a", "a", "b", "b"]) "a" (toInt 5)).1).val
      = (Size (New ["a", "a", "a", "b", "b"])).val - 3 :=
  ⟨(Size_change_spec (New ["a", "a", "a", "b", "b"]) "b" (toInt 2) (by decide)).2.1
      (by decide),
    ((Size_change_spec (New ["a", "a", "a", "b", "b"]) "a" (toInt 5) (by decide)).2.2
      (by decide)).2.2 (by decide)⟩

/-! ## Lock discipline of the exported methods -/

/-- C18 (the code at the failing method): `DistinctElements` evaluates `len(m.elems)`
before it takes the read lock, so it reads the map with no lock held; every other
exported method touches a map only under its lock. -/
theorem DistinctElements_reads_unlocked :
    lockDisciplined .no .no (steps .DistinctElements) = false ∧
    ∀ f : Method, f ≠ .DistinctElements → lockDisciplined .no .no (steps f) = true := by
  refine ⟨by decide, fun f hf => ?_⟩
  cases f <;> first | rfl | exact absurd rfl hf

end multiset
